import Mathlib

/-!
Verification development for the tmux-sessionizer core: the deduplication
resolver (`src/session.rs`), the picker selection/navigation/filter state
machine (`src/picker/mod.rs`), the ANSI-to-styled-text converter
(`src/picker/preview.rs`) and the discovery traversal (`src/repos.rs`),
embedded shallowly and checked against the specification's claims.
-/

namespace Tms

/-! ## Deduplication resolver (`src/session.rs`, `deduplicate_sessions`)

A `Session` is modelled by the two fields `deduplicate_sessions` reads and
writes: its display `name` and its filesystem path.  The path is the list of
components that Rust's `Path::iter()` yields, in order (for an absolute path
the first component is the root `"/"`). -/

structure Session where
  name : String
  path : List String
deriving DecidableEq, Repr

/-- Rust `path.iter().rev().nth(n)`: the `n`-th component counted from the end. -/
def revNth (p : List String) (n : Nat) : Option String :=
  p.reverse.get? n

/-- The inner `while equal` probe loop of `deduplicate_sessions`
(session.rs:208-221), written as structural recursion over the reversed-path
suffix that starts at the current probe depth `d`: at depth `d` the loop reads
`current_path.iter().rev().nth(d)` (the head of the suffix) and increments `d`
while any still-remaining session has an equal component at that same depth. -/
def probeGo (rest : List Session) (d : Nat) : List String → Nat
  | [] => d
  | cur :: rem =>
    if rest.any (fun s => revNth s.path d == some cur) then probeGo rest (d + 1) rem
    else d

/-- The probe depth computed for a popped session: the loop starts at
`current_depth = 1`, so it walks the reversed path from index 1. -/
def probeDepth (rest : List Session) (p : List String) : Nat :=
  probeGo rest 1 (p.reverse.drop 1)

/-- The first pass of `deduplicate_sessions` (session.rs:203-225).  The Rust
loop pops from the back of the input `Vec`; this function receives the
sessions already in pop order (the reversed `Vec`), so the still-remaining
stack contents seen by each probe are exactly the tail of the list.  It
returns the sessions in pop order together with the final `depth`
(initially 1, updated by `depth = depth.max(current_depth)` per pop). -/
def dedupPops : List Session → Nat → List Session × Nat
  | [], depth => ([], depth)
  | s :: rest, depth =>
    let d := probeDepth rest s.path
    let r := dedupPops rest (max depth d)
    (s :: r.1, r.2)

/-- The label builder of the second pass (session.rs:228-247): starting from
the empty string, walk the reversed path, prepending up to `count` components,
each separated by `/`. -/
def buildName : Nat → List String → String → String
  | 0, _, str => str
  | _ + 1, [], str => str
  | c + 1, dcomp :: rest, str =>
    buildName c rest (if str = "" then dcomp else dcomp ++ "/" ++ str)

/-- The second pass applied to one session: its name becomes the join of the
last `depth + 1` path components (session.rs:227-248). -/
def relabel (depth : Nat) (s : Session) : Session :=
  { s with name := buildName (depth + 1) s.path.reverse "" }

/-- Rust `deduplicate_sessions` (session.rs:200-251): first pass over the stack in
pop order (the reversed input `Vec`), then the uniform relabelling pass with
the maximal probe depth. -/
def deduplicate_sessions (l : List Session) : List Session :=
  let r := dedupPops l.reverse 1
  r.1.map (relabel r.2)

/-- The forward `/`-join of a component list, used to state what the label
builder produces. -/
def joinComps : List String → String
  | [] => ""
  | [c] => c
  | c :: c' :: t => c ++ "/" ++ joinComps (c' :: t)

/-- A legal path component as produced by Rust's `Path::iter()`: nonempty and
slash-free. -/
def validCompB (c : String) : Bool :=
  !c.data.isEmpty && !c.data.contains '/'

/-- A legal component list as produced by Rust's `Path::iter()`: nonempty,
every component valid, except that the first component of an absolute path is
the root `"/"`. -/
def validPathB : List String → Bool
  | [] => false
  | c :: rest => (validCompB c || c == "/") && rest.all validCompB

/-- The number of trailing path components two paths share, computed on the
reversed component lists. -/
def cslRev : List String → List String → Nat
  | a :: as, b :: bs => if a = b then cslRev as bs + 1 else 0
  | _, _ => 0

/-- Propositional form of `validCompB`. -/
def validCompP (c : String) : Prop := c.data ≠ [] ∧ '/' ∉ c.data

/-- The shape of a label's component list: its head may be the root `"/"`
(which happens only when the label is a whole absolute path), every other
component is an ordinary nonempty slash-free component. -/
def ValidLabel : List String → Prop
  | [] => True
  | c :: t => (validCompP c ∨ c = "/") ∧ ∀ x ∈ t, validCompP x

/-! ## Picker selection state (`src/picker/mod.rs`)

The selection is `ListState::selected()`, an `Option<usize>`; `count` is the
matcher snapshot's `matched_item_count()`. -/

/-- Rust `update_selection` (picker/mod.rs:150-162): the per-tick selection
reconciliation, as a function of the previous selection and the new matched
count.  Note the strict `selected > count` comparison in the source. -/
def update_selection (sel : Option Nat) (count : Nat) : Option Nat :=
  match sel with
  | some selected =>
    if count = 0 then none
    else if selected > count then some (count - 1)
    else some selected
  | none => if count > 0 then some 0 else none

/-- Rust `do_move_up` (picker/mod.rs:331-344). -/
def do_move_up (sel : Option Nat) (count : Nat) : Option Nat :=
  if count = 0 then sel
  else
    match sel with
    | some i => if i ≥ count - 1 then some 0 else some (i + 1)
    | none => some 0

/-- Rust `do_move_down` (picker/mod.rs:346-358).  The matched count is consulted
only in the `Some(0)` branch. -/
def do_move_down (sel : Option Nat) (count : Nat) : Option Nat :=
  match sel with
  | some 0 => if count = 0 then some 0 else some (count - 1)
  | some (i + 1) => some i
  | none => some 0

inductive InputPosition where
  | top
  | bottom
deriving DecidableEq, Repr

/-- Rust `move_up` (picker/mod.rs:315-321): the `MoveUp` action, inverted at the
input-position layer. -/
def move_up (pos : InputPosition) (sel : Option Nat) (count : Nat) : Option Nat :=
  if pos = InputPosition.bottom then do_move_up sel count else do_move_down sel count

/-- Rust `move_down` (picker/mod.rs:323-329): the `MoveDown` action, inverted at
the input-position layer.  `InputPosition::Bottom` is the default. -/
def move_down (pos : InputPosition) (sel : Option Nat) (count : Nat) : Option Nat :=
  if pos = InputPosition.bottom then do_move_down sel count else do_move_up sel count

/-! ## Picker filter editing (`src/picker/mod.rs`, `update_filter`)

The filter is a Rust `String` (a UTF-8 byte buffer), modelled as its list of
codepoints plus the byte-length function; `cursor_pos` is a `u16` byte
offset.  Operations that panic in Rust (inserting at a non-boundary byte
offset, `u16` overflow of `cursor_pos += 1`) are modelled as `none`. -/

/-- The UTF-8 byte length of a codepoint list (`String::len`). -/
def utf8Len (l : List Char) : Nat :=
  (l.map Char.utf8Size).sum

/-- Rust `String::insert(byte_idx, ch)`: insert at a byte offset; `none` models the
Rust panic when the offset is not a character boundary or past the end. -/
def insertByte : List Char → Nat → Char → Option (List Char)
  | l, 0, c => some (c :: l)
  | [], _ + 1, _ => none
  | a :: l, b + 1, c =>
    if a.utf8Size ≤ b + 1 then (insertByte l (b + 1 - a.utf8Size) c).map (a :: ·)
    else none

/-- The picker state touched by filter editing: the filter text, the `u16`
byte cursor, and the last pattern handed to the matcher by
`update_matcher_pattern`. -/
structure PState where
  filter : List Char
  cursor : Nat
  pattern : List Char
deriving DecidableEq, Repr

/-- Rust `update_filter` (picker/mod.rs:372-382): a printable-character insertion.
The guard compares the byte length against `u16::MAX` (65535) with `==`;
on insertion the cursor advances by one byte and the matcher pattern is
reparsed from the new filter. -/
def update_filter (st : PState) (c : Char) : Option PState :=
  if utf8Len st.filter = 65535 then some st
  else
    match insertByte st.filter st.cursor c with
    | none => none
    | some f =>
      if st.cursor + 1 ≤ 65535 then some { filter := f, cursor := st.cursor + 1, pattern := f }
      else none

/-- Rust `move_to_end` (picker/mod.rs:469-471): `u16::try_from(len).unwrap_or_default()`. -/
def move_to_end (st : PState) : PState :=
  { st with cursor := if utf8Len st.filter ≤ 65535 then utf8Len st.filter else 0 }

/-- The key events exercised by the filter-length claims: an unmapped
printable character (literal insertion) and the `MoveToLineEnd` action. -/
inductive PEvent where
  | insertChar (c : Char)
  | moveToLineEnd
deriving DecidableEq, Repr

def applyEvent (st : PState) : PEvent → Option PState
  | PEvent.insertChar c => update_filter st c
  | PEvent.moveToLineEnd => some (move_to_end st)

def applyEvents : List PEvent → PState → Option PState
  | [], st => some st
  | e :: es, st =>
    match applyEvent st e with
    | none => none
    | some st' => applyEvents es st'

/-! ## ANSI-to-styled-text converter (`src/picker/preview.rs`, `str_to_text`)

ratatui's `Style` is modelled by its rendered attributes: the modifier flags
and the three colors, where `TColor.reset` is the terminal-default color, so
that `Style::reset()` (every attribute cleared, every color `Color::Reset`)
and the all-default style coincide, as they do on screen.  Text is handled at
codepoint granularity, exactly as the Rust code iterates `str::chars()`.
The display width of a character (the external `unicode-width` crate, used by
ratatui's `Line::width`) and crossterm's `Colored::parse_ansi` for extended
color codes are external collaborators and are passed in as parameters. -/

inductive TColor where
  | reset
  | black
  | red
  | green
  | yellow
  | blue
  | magenta
  | cyan
  | gray
  | darkGray
  | lightRed
  | lightGreen
  | lightYellow
  | lightBlue
  | lightMagenta
  | lightCyan
  | white
  | indexed (n : Nat)
  | rgb (r g b : Nat)
deriving DecidableEq, Repr

structure TStyle where
  bold : Bool := false
  italic : Bool := false
  underlined : Bool := false
  rapidBlink : Bool := false
  slowBlink : Bool := false
  reversed : Bool := false
  crossedOut : Bool := false
  fg : TColor := TColor.reset
  bg : TColor := TColor.reset
  underlineColor : TColor := TColor.reset
deriving DecidableEq, Repr

/-- The result of crossterm's `Colored::parse_ansi` on an extended SGR
parameter string. -/
inductive ParsedColor where
  | fgColor (c : TColor)
  | bgColor (c : TColor)
  | ulColor (c : TColor)
deriving DecidableEq, Repr

/-- The style mutation performed when an escape terminates with `'m'`
(preview.rs:84-137), one arm per SGR parameter string of the source `match`;
the fallback arm delegates to `Colored::parse_ansi` (the parameter `pa`). -/
def applyCode (pa : String → Option ParsedColor) (code : String) (st : TStyle) : TStyle :=
  match code with
  | "" => {}
  | "0" => {}
  | "1" => { st with bold := true }
  | "3" => { st with italic := true }
  | "4" => { st with underlined := true }
  | "5" => { st with rapidBlink := true }
  | "6" => { st with slowBlink := true }
  | "7" => { st with reversed := true }
  | "9" => { st with crossedOut := true }
  | "22" => { st with bold := false }
  | "23" => { st with italic := false }
  | "24" => { st with underlined := false }
  | "25" => { st with rapidBlink := false, slowBlink := false }
  | "27" => { st with reversed := false }
  | "29" => { st with crossedOut := false }
  | "30" => { st with fg := TColor.black }
  | "31" => { st with fg := TColor.red }
  | "32" => { st with fg := TColor.green }
  | "33" => { st with fg := TColor.yellow }
  | "34" => { st with fg := TColor.blue }
  | "35" => { st with fg := TColor.magenta }
  | "36" => { st with fg := TColor.cyan }
  | "37" => { st with fg := TColor.gray }
  | "40" => { st with bg := TColor.black }
  | "41" => { st with bg := TColor.red }
  | "42" => { st with bg := TColor.green }
  | "43" => { st with bg := TColor.yellow }
  | "44" => { st with bg := TColor.blue }
  | "45" => { st with bg := TColor.magenta }
  | "46" => { st with bg := TColor.cyan }
  | "47" => { st with bg := TColor.gray }
  | "90" => { st with fg := TColor.darkGray }
  | "100" => { st with fg := TColor.darkGray }
  | "91" => { st with fg := TColor.lightRed }
  | "101" => { st with fg := TColor.lightRed }
  | "92" => { st with fg := TColor.lightGreen }
  | "102" => { st with fg := TColor.lightGreen }
  | "93" => { st with fg := TColor.lightYellow }
  | "103" => { st with fg := TColor.lightYellow }
  | "94" => { st with fg := TColor.lightBlue }
  | "104" => { st with fg := TColor.lightBlue }
  | "95" => { st with fg := TColor.lightMagenta }
  | "105" => { st with fg := TColor.lightMagenta }
  | "96" => { st with fg := TColor.lightCyan }
  | "106" => { st with fg := TColor.lightCyan }
  | "97" => { st with fg := TColor.white }
  | "107" => { st with fg := TColor.white }
  | other =>
    match pa other with
    | some (ParsedColor.fgColor c) => { st with fg := c }
    | some (ParsedColor.bgColor c) => { st with bg := c }
    | some (ParsedColor.ulColor c) => { st with underlineColor := c }
    | none => st

/-- A styled run: the content characters and the style it was flushed under
(ratatui `Span`). -/
abbrev TSpan := List Char × TStyle

/-- ratatui `Line::width()`: the sum of the display widths of the spans already pushed
into the current output line, with `cw` the per-character width. -/
def lineWidth (cw : Char → Nat) (spans : List TSpan) : Nat :=
  (spans.map (fun sp => (sp.1.map cw).sum)).sum

/-- The character loop of `str_to_text` for one source line
(preview.rs:59-145).  The loop index `i` is represented by the remaining
character suffix: `l.chars().nth(i + 1)` is the head of the tail, and
`i == l.chars().count() - 1` holds exactly when the tail is empty.  Outside an
escape, a character is pushed onto `tspan` and then the combined width test
`line.width() + tspan.chars().count() == max || last-char` flushes the run and
`break`s out of the loop.  Returns the spans of this output line plus the
style and `tspan` accumulator, both of which persist to the next source
line (only `ansi_state` is reset per line). -/
def processLine (pa : String → Option ParsedColor) (cw : Char → Nat) (max : Nat) :
    List Char → Bool → TStyle → List Char → List TSpan → List TSpan × TStyle × List Char
  | [], _, st, tsp, spans => (spans, st, tsp)
  | ch :: rest, ansi, st, tsp, spans =>
    if ansi then
      if ch = '[' then processLine pa cw max rest true st tsp spans
      else if ch = 'm' then
        processLine pa cw max rest false (applyCode pa (String.mk tsp) st) [] spans
      else processLine pa cw max rest true st (tsp ++ [ch]) spans
    else
      if ch = '\x1b' ∧ rest.head? = some '[' then
        let spans' := if tsp ≠ [] then spans ++ [(tsp, st)] else spans
        processLine pa cw max rest true st [] spans'
      else
        let tsp' := tsp ++ [ch]
        if lineWidth cw spans + tsp'.length = max ∨ rest = [] then
          (spans ++ [(tsp', st)], st, [])
        else processLine pa cw max rest false st tsp' spans

/-- One step of splitting a character list at `'\n'` (the pieces, in order,
including a final piece after the last newline). -/
def splitNl : List Char → List (List Char)
  | [] => [[]]
  | c :: rest =>
    match splitNl rest with
    | [] => []
    | h :: t => if c = '\n' then [] :: h :: t else (c :: h) :: t

/-- Strip one trailing `'\r'` (the `\r\n` handling of Rust's `str::lines`). -/
def stripCr : List Char → List Char
  | [] => []
  | c :: rest => if rest = [] ∧ c = '\r' then [] else c :: stripCr rest

/-- Assemble the pieces as `str::lines` does: every piece but the last was
terminated by `'\n'` and loses a trailing `'\r'`; an empty final piece (the
text ended with a newline) is dropped, a nonempty one is kept verbatim. -/
def linesPieces : List (List Char) → List (List Char)
  | [] => []
  | [last] => if last = [] then [] else [last]
  | pc :: next :: rest => stripCr pc :: linesPieces (next :: rest)

/-- Rust's `str::lines` over the codepoint list. -/
def rustLines (cs : List Char) : List (List Char) :=
  linesPieces (splitNl cs)

/-- The outer loop of `str_to_text` (preview.rs:55-148): one output line per
source line; `style` and `tspan` persist across lines, `ansi_state` restarts
at `false`. -/
def linesGo (pa : String → Option ParsedColor) (cw : Char → Nat) (max : Nat) :
    List (List Char) → TStyle → List Char → List (List TSpan)
  | [], _, _ => []
  | l :: ls, st, tsp =>
    let r := processLine pa cw max l false st tsp []
    r.1 :: linesGo pa cw max ls r.2.1 r.2.2

/-- Rust `str_to_text` (preview.rs:49-151): the converter, producing for each
source line the list of styled runs of the corresponding output line. -/
def str_to_text (pa : String → Option ParsedColor) (cw : Char → Nat)
    (s : String) (max : Nat) : List (List TSpan) :=
  linesGo pa cw max (rustLines s.data) {} []

/-! ## Discovery traversal (`src/repos.rs`, `search_dirs`)

Paths are modelled as strings (the traversal only compares and records them;
`to_string()` conversion is taken as infallible, i.e. paths are UTF-8).  The
filesystem is an oracle: whether `LazyRepoProvider::new` succeeds on a path,
whether the path is a directory, and what `fs::read_dir` returns.  The run is
instrumented with the paths on which a repository open was attempted, the
paths handed to the callback `f`, and the permission warnings printed. -/

structure SearchDirectory where
  path : String
  depth : Nat
deriving DecidableEq, Repr

inductive ReadDirRes where
  | ok (children : List String)
  | permDenied
  | otherErr
deriving DecidableEq, Repr

structure Fs where
  isRepo : String → Bool
  isDir : String → Bool
  readDir : String → ReadDirRes

inductive TmsErr where
  | ioError
deriving DecidableEq, Repr

structure SearchState where
  queue : List SearchDirectory
  opened : List String
  emitted : List String
  warnings : List String
deriving DecidableEq, Repr

/-- Substring scan over codepoints, by checking a pattern match at every start position. -/
def isSubstr (pat : List Char) : List Char → Bool
  | [] => pat.isEmpty
  | c :: t => pat.isPrefixOf (c :: t) || isSubstr pat t

/-- The Aho-Corasick `excluder.is_match` (repos.rs:386-402): built only when
`excluded_dirs` is configured; matches when any exclusion literal occurs as a
substring of the path string. -/
def isMatch (excl : Option (List String)) (p : String) : Bool :=
  match excl with
  | none => false
  | some pats => pats.any (fun pat => isSubstr pat.data p.data)

/-- The `while let Some(file) = to_search.pop_front()` loop of `search_dirs`
(repos.rs:397-437), run with explicit fuel (fuel exhaustion returns the state
reached so far with success).  Per popped front item: an exclusion match
discards it entirely; otherwise a repository open is attempted (recorded in
`opened`) and on success the callback runs (recorded in `emitted`); otherwise,
for a directory with remaining depth, `read_dir` either appends the children
at the back of the queue with depth decremented, or warns and skips on
`PermissionDenied`, or aborts the whole traversal with `IoError`. -/
def search_dirs (excl : Option (List String)) (fs : Fs) :
    Nat → SearchState → SearchState × Except TmsErr Unit
  | 0, st => (st, Except.ok ())
  | _ + 1, ⟨[], op, em, wa⟩ => (⟨[], op, em, wa⟩, Except.ok ())
  | fuel + 1, ⟨file :: rest, op, em, wa⟩ =>
    if isMatch excl file.path then
      search_dirs excl fs fuel ⟨rest, op, em, wa⟩
    else if fs.isRepo file.path then
      search_dirs excl fs fuel ⟨rest, op ++ [file.path], em ++ [file.path], wa⟩
    else if fs.isDir file.path ∧ file.depth > 0 then
      match fs.readDir file.path with
      | ReadDirRes.permDenied =>
        search_dirs excl fs fuel ⟨rest, op ++ [file.path], em, wa ++ [file.path]⟩
      | ReadDirRes.otherErr =>
        (⟨rest, op ++ [file.path], em, wa⟩, Except.error TmsErr.ioError)
      | ReadDirRes.ok children =>
        search_dirs excl fs fuel
          ⟨rest ++ children.map (fun c => ⟨c, file.depth - 1⟩), op ++ [file.path], em, wa⟩
    else search_dirs excl fs fuel ⟨rest, op ++ [file.path], em, wa⟩

/-! ## Concrete instances used by counterexamples and witnesses -/

/-- The collision group of the specification's concrete dedup example:
`/a/b/proj`, `/a/c/proj`, `/x/y/z/proj`, all with basename `proj`. -/
def sessSpecExample : List Session :=
  [⟨"proj", ["/", "a", "b", "proj"]⟩,
   ⟨"proj", ["/", "a", "c", "proj"]⟩,
   ⟨"proj", ["/", "x", "y", "z", "proj"]⟩]

/-- A three-candidate collision group on which re-running the resolver
changes the labels: the probe of `z/r/m/proj` rides `a0/x/m/proj` at depth 1
and `b0/r/y/proj` at depth 2, but only when those two are still on the stack,
and re-running reverses the pop order. -/
def sessIdem : List Session :=
  [⟨"proj", ["a0", "x", "m", "proj"]⟩,
   ⟨"proj", ["b0", "r", "y", "proj"]⟩,
   ⟨"proj", ["z", "r", "m", "proj"]⟩]

/-- The collision group of the repository's own unit test
`verify_session_name_deduplication` (session.rs:302-319). -/
def sessRepoTest : List Session :=
  [⟨"test", ["/", "search", "path", "to", "proj1", "test"]⟩,
   ⟨"test", ["/", "search", "path", "to", "proj2", "test"]⟩,
   ⟨"test", ["/", "other", "path", "to", "projects", "proj2", "test"]⟩]

/-- A trivial `Colored::parse_ansi` instance: no extended code parses (the
concrete inputs below never reach the fallback arm). -/
def paNone : String → Option ParsedColor := fun _ => none

/-- The display width of ASCII printable characters is 1; the concrete
converter inputs below are ASCII. -/
def cwOne : Char → Nat := fun _ => 1

/-- Rounds of key events for the filter-length counterexample: each round
types the two-byte character `é` and then presses `MoveToLineEnd` (which puts
the byte cursor back on a character boundary). -/
def rounds : Nat → List PEvent
  | 0 => []
  | n + 1 => rounds n ++ [PEvent.insertChar 'é', PEvent.moveToLineEnd]

/-- A small filesystem oracle for the traversal witnesses: one repository,
everything a directory, one permission-denied subtree. -/
def fsW : Fs :=
  { isRepo := fun p => p == "/r/repo"
    isDir := fun _ => true
    readDir := fun p => if p == "/r/d" then ReadDirRes.permDenied else ReadDirRes.ok [] }

/-! ## Sanity check: the embedding reproduces the repository's own unit test -/

/-- The embedding reproduces `verify_session_name_deduplication` exactly,
including the output order. -/
theorem dedup_reproduces_repo_test :
    (deduplicate_sessions sessRepoTest).map Session.name =
      ["projects/proj2/test", "to/proj2/test", "to/proj1/test"] := by
  decide

/-! ## Claim C1: the spec's concrete dedup example -/

/-- Claim C1 is false on the code: for `/a/b/proj`, `/a/c/proj`,
`/x/y/z/proj` no probe finds a collision at reversed index 1 (the components
`b`, `c`, `z` are pairwise distinct), so the group depth stays 1 and the
third candidate is labelled `z/proj`; no candidate receives the claimed label
`y/z/proj`. -/
theorem C1_counterexample :
    (deduplicate_sessions sessSpecExample).map Session.name = ["z/proj", "c/proj", "b/proj"]
    ∧ ∀ s ∈ deduplicate_sessions sessSpecExample, s.name ≠ "y/z/proj" := by
  decide

/-- Claim C1, amended: the resolver labels the group `/a/b/proj`, `/a/c/proj`,
`/x/y/z/proj` with `b/proj`, `c/proj` and `z/proj` (each candidate keeps its
own path, every label uses the group-maximum probe depth plus one, i.e. two,
components). -/
theorem C1_amended :
    deduplicate_sessions sessSpecExample =
      [⟨"z/proj", ["/", "x", "y", "z", "proj"]⟩,
       ⟨"c/proj", ["/", "a", "c", "proj"]⟩,
       ⟨"b/proj", ["/", "a", "b", "proj"]⟩] := by
  decide

/-! ## Claim C2: the selection reconciliation invariant -/

/-- Claim C2 is false on the code: with previous selection 2 and new matched
count 2, `update_selection` leaves the selection at 2, which is not in
`[0, 2)` — the source clamps only on the strict comparison `selected > count`. -/
theorem C2_counterexample :
    update_selection (some 2) 2 = some 2 ∧ ¬(2 < 2) := by
  decide

/-- Claim C2, amended: after reconciliation the selection is `none` iff the
matched count is 0; otherwise it lies in the closed range `[0, matchedCount]`;
a previous selection strictly greater than the count is clamped to
`matchedCount - 1`, while a previous selection equal to the count is left
unchanged (one past the last valid index). -/
theorem C2_amended (sel : Option Nat) (count : Nat) :
    (update_selection sel count = none ↔ count = 0)
    ∧ (∀ i, update_selection sel count = some i → i ≤ count)
    ∧ (∀ s, sel = some s → count < s → 0 < count →
        update_selection sel count = some (count - 1))
    ∧ (sel = some count → 0 < count → update_selection sel count = some count) := by
  cases sel with
  | none =>
    simp only [update_selection]
    refine ⟨?_, ?_, ?_, ?_⟩
    · split <;> simp <;> omega
    · intro i h
      split at h <;> simp_all <;> omega
    · intro s h
      simp at h
    · intro h
      simp at h
  | some s =>
    simp only [update_selection]
    refine ⟨?_, ?_, ?_, ?_⟩
    · split
      · simp_all
      · split <;> simp_all
    · intro i h
      split at h
      · simp_all
      · split at h <;> simp_all <;> omega
    · intro t ht hlt hpos
      simp at ht
      subst ht
      rw [if_neg (by omega), if_pos (by omega)]
    · intro h hpos
      simp at h
      subst h
      rw [if_neg (by omega), if_neg (by omega)]

/-- Witness for `C2_amended` at previous selection 5 and matched count 3. -/
theorem C2_amended_witness : update_selection (some 5) 3 = some 2 :=
  (C2_amended (some 5) 3).2.2.1 5 rfl (by decide) (by decide)

/-! ## Claim C7: navigation wrap-around and round trips -/

/-- Claim C7 is false on the code: under the default bottom input position,
`MoveDown` from the last-ranked item (index 2 of a count of 3) moves to
index 1 instead of wrapping to the first-ranked item. -/
theorem C7_counterexample :
    move_down InputPosition.bottom (some 2) 3 = some 1 ∧ (1 : Nat) ≠ 0 := by
  decide

theorem do_move_down_lt (count i : Nat) (h0 : 0 < count) (hi : i < count) :
    ∃ j, do_move_down (some i) count = some j ∧ j < count := by
  cases i with
  | zero => exact ⟨count - 1, by simp [do_move_down]; omega, by omega⟩
  | succ i => exact ⟨i, by simp [do_move_down], by omega⟩

theorem do_move_up_lt (count i : Nat) (h0 : 0 < count) (hi : i < count) :
    ∃ j, do_move_up (some i) count = some j ∧ j < count := by
  by_cases h : i ≥ count - 1
  · exact ⟨0, by simp [do_move_up, h]; omega, h0⟩
  · exact ⟨i + 1, by simp [do_move_up, h]; omega, by omega⟩

theorem up_down_id (count i : Nat) (h0 : 0 < count) (hi : i < count) :
    do_move_up (do_move_down (some i) count) count = some i := by
  have hc : ¬count = 0 := by omega
  cases i with
  | zero => simp [do_move_down, do_move_up, hc]
  | succ i =>
    have hlt : ¬i ≥ count - 1 := by omega
    simp [do_move_down, do_move_up, hc, hlt]

theorem down_up_id (count i : Nat) (h0 : 0 < count) (hi : i < count) :
    do_move_down (do_move_up (some i) count) count = some i := by
  have hc : ¬count = 0 := by omega
  by_cases h : i ≥ count - 1
  · have hieq : i = count - 1 := by omega
    subst hieq
    simp [do_move_up, do_move_down, hc]
  · have h1 : do_move_up (some i) count = some (i + 1) := by simp [do_move_up, hc, h]
    rw [h1]
    simp [do_move_down]

theorem iter_up_after_down (count : Nat) (h0 : 0 < count) :
    ∀ N i, i < count →
      (fun s => do_move_up s count)^[N] ((fun s => do_move_down s count)^[N] (some i)) =
        some i := by
  intro N
  induction N with
  | zero => intro i _; simp
  | succ N ih =>
    intro i hi
    obtain ⟨j, hj, hjlt⟩ := do_move_down_lt count i h0 hi
    have h1 : (fun s => do_move_down s count)^[N + 1] (some i) =
        (fun s => do_move_down s count)^[N] (some j) := by
      rw [Function.iterate_succ_apply]
      exact congrArg _ hj
    have h2 : (fun s => do_move_up s count)^[N + 1]
          ((fun s => do_move_down s count)^[N] (some j)) =
        do_move_up ((fun s => do_move_up s count)^[N]
          ((fun s => do_move_down s count)^[N] (some j))) count := by
      rw [Function.iterate_succ_apply']
    rw [h1, h2, ih j hjlt, ← hj, up_down_id count i h0 hi]

theorem iter_down_after_up (count : Nat) (h0 : 0 < count) :
    ∀ N i, i < count →
      (fun s => do_move_down s count)^[N] ((fun s => do_move_up s count)^[N] (some i)) =
        some i := by
  intro N
  induction N with
  | zero => intro i _; simp
  | succ N ih =>
    intro i hi
    obtain ⟨j, hj, hjlt⟩ := do_move_up_lt count i h0 hi
    have h1 : (fun s => do_move_up s count)^[N + 1] (some i) =
        (fun s => do_move_up s count)^[N] (some j) := by
      rw [Function.iterate_succ_apply]
      exact congrArg _ hj
    have h2 : (fun s => do_move_down s count)^[N + 1]
          ((fun s => do_move_up s count)^[N] (some j)) =
        do_move_down ((fun s => do_move_down s count)^[N]
          ((fun s => do_move_up s count)^[N] (some j))) count := by
      rw [Function.iterate_succ_apply']
    rw [h1, h2, ih j hjlt, ← hj, down_up_id count i h0 hi]

/-- Claim C7, amended: with a nonzero matched count, under the default bottom
input position `MoveDown` from the first-ranked item wraps to the last-ranked
one and `MoveUp` from the last-ranked item wraps to the first (under a top
input position the directions swap, so there `MoveDown` from the last-ranked
item does wrap to the first); and for either input position, any `N`
`MoveDown` actions followed by `N` `MoveUp` actions return a valid selection
to its original index. -/
theorem C7_amended (count : Nat) (h0 : 0 < count) :
    move_down InputPosition.bottom (some 0) count = some (count - 1)
    ∧ move_up InputPosition.bottom (some (count - 1)) count = some 0
    ∧ move_down InputPosition.top (some (count - 1)) count = some 0
    ∧ ∀ (pos : InputPosition) (i N : Nat), i < count →
        (fun s => move_up pos s count)^[N] ((fun s => move_down pos s count)^[N] (some i)) =
          some i := by
  refine ⟨?_, ?_, ?_, ?_⟩
  · simp [move_down, do_move_down, if_neg (by omega : ¬count = 0)]
  · simp [move_up, do_move_up, if_neg (by omega : ¬count = 0)]
  · simp [move_down, do_move_up, if_neg (by omega : ¬count = 0)]
  · intro pos i N hi
    cases pos with
    | bottom =>
      simp only [move_up, move_down, if_pos rfl]
      exact iter_up_after_down count h0 N i hi
    | top =>
      simp only [move_up, move_down,
        if_neg (by simp : ¬InputPosition.top = InputPosition.bottom)]
      exact iter_down_after_up count h0 N i hi

/-- Witness for `C7_amended` at count 3: wrap at the bottom input position and
a 2-down/2-up round trip from index 1. -/
theorem C7_amended_witness :
    move_down InputPosition.bottom (some 0) 3 = some 2
    ∧ (fun s => move_up InputPosition.bottom s 3)^[2]
        ((fun s => move_down InputPosition.bottom s 3)^[2] (some 1)) = some 1 :=
  ⟨(C7_amended 3 (by decide)).1, (C7_amended 3 (by decide)).2.2.2 InputPosition.bottom 1 2 (by decide)⟩

/-! ## Claims C6 and C9: the discovery traversal -/

theorem search_dirs_opened_not_excluded (excl : Option (List String)) (fs : Fs) :
    ∀ (fuel : Nat) (st : SearchState),
      (∀ q ∈ st.opened, isMatch excl q = false) →
      ∀ q ∈ (search_dirs excl fs fuel st).1.opened, isMatch excl q = false := by
  intro fuel
  induction fuel with
  | zero => intro st h; exact h
  | succ fuel ih =>
    rintro ⟨qu, op, em, wa⟩ h
    cases qu with
    | nil => exact h
    | cons file rest =>
      rw [search_dirs]
      by_cases hm : isMatch excl file.path
      · rw [if_pos hm]
        exact ih _ h
      · have h1 : ∀ q ∈ op ++ [file.path], isMatch excl q = false := by
          intro q hqmem
          rcases List.mem_append.mp hqmem with hql | hqr
          · exact h q hql
          · simp only [List.mem_singleton] at hqr
            subst hqr
            simpa using hm
        rw [if_neg hm]
        by_cases hrep : fs.isRepo file.path
        · rw [if_pos hrep]
          exact ih _ h1
        · rw [if_neg hrep]
          by_cases hdir : fs.isDir file.path ∧ file.depth > 0
          · rw [if_pos hdir]
            cases fs.readDir file.path with
            | ok children => exact ih _ h1
            | permDenied => exact ih _ h1
            | otherErr => exact h1
          · rw [if_neg hdir]
            exact ih _ h1

theorem search_dirs_emitted_not_excluded (excl : Option (List String)) (fs : Fs) :
    ∀ (fuel : Nat) (st : SearchState),
      (∀ q ∈ st.emitted, isMatch excl q = false) →
      ∀ q ∈ (search_dirs excl fs fuel st).1.emitted, isMatch excl q = false := by
  intro fuel
  induction fuel with
  | zero => intro st h; exact h
  | succ fuel ih =>
    rintro ⟨qu, op, em, wa⟩ h
    cases qu with
    | nil => exact h
    | cons file rest =>
      rw [search_dirs]
      by_cases hm : isMatch excl file.path
      · rw [if_pos hm]
        exact ih _ h
      · have h1 : ∀ q ∈ em ++ [file.path], isMatch excl q = false := by
          intro q hqmem
          rcases List.mem_append.mp hqmem with hql | hqr
          · exact h q hql
          · simp only [List.mem_singleton] at hqr
            subst hqr
            simpa using hm
        rw [if_neg hm]
        by_cases hrep : fs.isRepo file.path
        · rw [if_pos hrep]
          exact ih _ h1
        · rw [if_neg hrep]
          by_cases hdir : fs.isDir file.path ∧ file.depth > 0
          · rw [if_pos hdir]
            cases fs.readDir file.path with
            | ok children => exact ih _ h
            | permDenied => exact ih _ h
            | otherErr => exact h
          · rw [if_neg hdir]
            exact ih _ h

/-- Claim C6: a queued directory whose full path string contains a configured
exclusion literal is discarded outright when popped — processing continues
exactly as if the item had never been queued, so it is never opened as a
repository, none of its children are enqueued, and it contributes no
candidate; moreover no path that matches an exclusion literal is ever opened
or emitted during the whole traversal. -/
theorem C6_excluded_discarded (excl : Option (List String)) (fs : Fs) (fuel : Nat)
    (st : SearchState) (p : String) (d : Nat) (rest : List SearchDirectory)
    (hq : st.queue = ⟨p, d⟩ :: rest) (hm : isMatch excl p = true) :
    search_dirs excl fs (fuel + 1) st = search_dirs excl fs fuel { st with queue := rest }
    ∧ ∀ fuel',
        (∀ q ∈ st.opened, isMatch excl q = false) →
        (∀ q ∈ st.emitted, isMatch excl q = false) →
        (∀ q ∈ (search_dirs excl fs fuel' st).1.opened, isMatch excl q = false)
        ∧ ∀ q ∈ (search_dirs excl fs fuel' st).1.emitted, isMatch excl q = false := by
  obtain ⟨qu, op, em, wa⟩ := st
  replace hq : qu = ⟨p, d⟩ :: rest := hq
  subst hq
  constructor
  · rw [search_dirs,
      if_pos (show isMatch excl ({ path := p, depth := d } : SearchDirectory).path = true from hm)]
  · intro fuel' hop hem
    exact ⟨search_dirs_opened_not_excluded excl fs fuel' _ hop,
      search_dirs_emitted_not_excluded excl fs fuel' _ hem⟩

/-- Witness for `C6_excluded_discarded`: the path `x-skip-y` matches the
exclusion literal `skip`, is dropped, and nothing matching `skip` is ever
opened. -/
theorem C6_excluded_discarded_witness :
    search_dirs (some ["skip"]) fsW 1 ⟨[⟨"x-skip-y", 1⟩], [], [], []⟩ =
      search_dirs (some ["skip"]) fsW 0 ⟨[], [], [], []⟩
    ∧ ∀ q ∈ (search_dirs (some ["skip"]) fsW 5 ⟨[⟨"x-skip-y", 1⟩], [], [], []⟩).1.opened,
        isMatch (some ["skip"]) q = false := by
  have h := C6_excluded_discarded (some ["skip"]) fsW 0 ⟨[⟨"x-skip-y", 1⟩], [], [], []⟩
    "x-skip-y" 1 [] rfl (by decide)
  exact ⟨h.1, fun q hq => ((h.2 5 (by simp) (by simp)).1 q hq)⟩

/-- Claim C9: when reading a queued directory's entries fails, a
permission-denied error only records a warning and the traversal continues
with the remaining queue (so it still returns whatever the rest produces,
success included), while any other I/O error aborts the whole traversal
immediately with `IoError`. -/
theorem C9_read_dir_errors (excl : Option (List String)) (fs : Fs) (fuel : Nat)
    (st : SearchState) (p : String) (d : Nat) (rest : List SearchDirectory)
    (hq : st.queue = ⟨p, d⟩ :: rest) (hm : isMatch excl p = false)
    (hrep : fs.isRepo p = false) (hdir : fs.isDir p = true) (hd : 0 < d) :
    (fs.readDir p = ReadDirRes.permDenied →
      search_dirs excl fs (fuel + 1) st =
        search_dirs excl fs fuel
          { st with queue := rest, opened := st.opened ++ [p],
                    warnings := st.warnings ++ [p] })
    ∧ (fs.readDir p = ReadDirRes.otherErr →
      search_dirs excl fs (fuel + 1) st =
        ({ st with queue := rest, opened := st.opened ++ [p] },
          Except.error TmsErr.ioError)) := by
  obtain ⟨qu, op, em, wa⟩ := st
  replace hq : qu = ⟨p, d⟩ :: rest := hq
  subst hq
  constructor
  · intro hrd
    rw [search_dirs]
    rw [if_neg (show ¬isMatch excl ({ path := p, depth := d } : SearchDirectory).path = true by
          simp [hm]),
      if_neg (show ¬fs.isRepo ({ path := p, depth := d } : SearchDirectory).path = true by
          simp [hrep]),
      if_pos (show fs.isDir ({ path := p, depth := d } : SearchDirectory).path = true ∧
          ({ path := p, depth := d } : SearchDirectory).depth > 0 from ⟨hdir, hd⟩)]
    rw [show fs.readDir ({ path := p, depth := d } : SearchDirectory).path =
        ReadDirRes.permDenied from hrd]
  · intro hrd
    rw [search_dirs]
    rw [if_neg (show ¬isMatch excl ({ path := p, depth := d } : SearchDirectory).path = true by
          simp [hm]),
      if_neg (show ¬fs.isRepo ({ path := p, depth := d } : SearchDirectory).path = true by
          simp [hrep]),
      if_pos (show fs.isDir ({ path := p, depth := d } : SearchDirectory).path = true ∧
          ({ path := p, depth := d } : SearchDirectory).depth > 0 from ⟨hdir, hd⟩)]
    rw [show fs.readDir ({ path := p, depth := d } : SearchDirectory).path =
        ReadDirRes.otherErr from hrd]

/-- Witness for `C9_read_dir_errors`: popping the permission-denied directory
`/r/d` appends a warning and continues with the rest of the queue. -/
theorem C9_read_dir_errors_witness :
    search_dirs (some ["skip"]) fsW 1 ⟨[⟨"/r/d", 1⟩], [], [], []⟩ =
      search_dirs (some ["skip"]) fsW 0 ⟨[], ["/r/d"], [], ["/r/d"]⟩ :=
  (C9_read_dir_errors (some ["skip"]) fsW 0 ⟨[⟨"/r/d", 1⟩], [], [], []⟩ "/r/d" 1 []
    rfl (by decide) (by decide) (by decide) (by decide)).1 (by decide)

/-! ## Claim C10: the filter-length cap -/

theorem utf8Len_append_singleton (l : List Char) (c : Char) :
    utf8Len (l ++ [c]) = utf8Len l + c.utf8Size := by
  simp [utf8Len]

theorem utf8Len_replicate (n : Nat) (c : Char) :
    utf8Len (List.replicate n c) = n * c.utf8Size := by
  induction n with
  | zero => simp [utf8Len]
  | succ n ih =>
    rw [List.replicate_succ' n c, utf8Len_append_singleton, ih]
    ring

theorem insertByte_at_end (l : List Char) (c : Char) :
    insertByte l (utf8Len l) c = some (l ++ [c]) := by
  induction l with
  | nil => simp [utf8Len, insertByte]
  | cons a l ih =>
    have hpos : 0 < a.utf8Size := Char.utf8Size_pos a
    have hlen : utf8Len (a :: l) = a.utf8Size + utf8Len l := by
      simp [utf8Len]
    obtain ⟨k, hk⟩ : ∃ k, utf8Len (a :: l) = k + 1 := ⟨utf8Len (a :: l) - 1, by omega⟩
    rw [hk]
    rw [show insertByte (a :: l) (k + 1) c =
        if a.utf8Size ≤ k + 1 then (insertByte l (k + 1 - a.utf8Size) c).map (a :: ·)
        else none from rfl]
    rw [if_pos (by omega), show k + 1 - a.utf8Size = utf8Len l by omega, ih]
    rfl

theorem insertByte_utf8Len (l : List Char) (b : Nat) (c : Char) :
    ∀ l', insertByte l b c = some l' → utf8Len l' = utf8Len l + c.utf8Size := by
  induction l generalizing b with
  | nil =>
    intro l' h
    cases b with
    | zero =>
      simp only [insertByte, Option.some.injEq] at h
      subst h
      simp [utf8Len]
    | succ b => simp [insertByte] at h
  | cons a l ih =>
    intro l' h
    cases b with
    | zero =>
      simp only [insertByte, Option.some.injEq] at h
      subst h
      simp [utf8Len]
      ring
    | succ b =>
      rw [show insertByte (a :: l) (b + 1) c =
          if a.utf8Size ≤ b + 1 then (insertByte l (b + 1 - a.utf8Size) c).map (a :: ·)
          else none from rfl] at h
      by_cases hle : a.utf8Size ≤ b + 1
      · rw [if_pos hle] at h
        cases hrec : insertByte l (b + 1 - a.utf8Size) c with
        | none => rw [hrec] at h; simp at h
        | some l'' =>
          rw [hrec] at h
          simp only [Option.map_some', Option.some.injEq] at h
          subst h
          have := ih (b + 1 - a.utf8Size) l'' hrec
          simp [utf8Len] at this ⊢
          omega
      · rw [if_neg hle] at h
        simp at h

theorem applyEvents_append (xs ys : List PEvent) (st : PState) :
    applyEvents (xs ++ ys) st =
      match applyEvents xs st with
      | none => none
      | some st' => applyEvents ys st' := by
  induction xs generalizing st with
  | nil => simp [applyEvents]
  | cons e es ih =>
    rw [List.cons_append, applyEvents, applyEvents]
    cases applyEvent st e with
    | none => rfl
    | some st' => exact ih st'

theorem update_filter_grow (fl : List Char) (cur : Nat) (pat fl' : List Char)
    (hne : ¬utf8Len fl = 65535) (hins : insertByte fl cur 'é' = some fl')
    (hc : cur + 1 ≤ 65535) :
    update_filter ⟨fl, cur, pat⟩ 'é' = some ⟨fl', cur + 1, fl'⟩ := by
  rw [update_filter,
    if_neg (show ¬utf8Len (⟨fl, cur, pat⟩ : PState).filter = 65535 from hne)]
  rw [show insertByte (⟨fl, cur, pat⟩ : PState).filter (⟨fl, cur, pat⟩ : PState).cursor 'é' =
      some fl' from hins]
  show (if cur + 1 ≤ 65535 then
      some (⟨fl', cur + 1, fl'⟩ : PState) else none) = some ⟨fl', cur + 1, fl'⟩
  rw [if_pos hc]

theorem rounds_state (n : Nat) (hn : n ≤ 32767) :
    applyEvents (rounds n) ⟨[], 0, []⟩ =
      some ⟨List.replicate n 'é', 2 * n, List.replicate n 'é'⟩ := by
  induction n with
  | zero => simp [rounds, applyEvents]
  | succ n ih =>
    have hn' : n ≤ 32767 := by omega
    rw [rounds, applyEvents_append, ih hn']
    have hsize : ('é' : Char).utf8Size = 2 := by decide
    have hlen : utf8Len (List.replicate n 'é') = 2 * n := by
      rw [utf8Len_replicate, hsize]; ring
    have hne : ¬utf8Len (List.replicate n 'é') = 65535 := by omega
    have hins : insertByte (List.replicate n 'é') (2 * n) 'é' =
        some (List.replicate (n + 1) 'é') := by
      rw [← hlen, insertByte_at_end, List.replicate_succ' n 'é']
    have hstep := update_filter_grow (List.replicate n 'é') (2 * n) (List.replicate n 'é')
      (List.replicate (n + 1) 'é') hne hins (by omega)
    have hlen' : utf8Len (List.replicate (n + 1) 'é') = 2 * (n + 1) := by
      rw [utf8Len_replicate, hsize]; ring
    show applyEvents [PEvent.insertChar 'é', PEvent.moveToLineEnd]
        ⟨List.replicate n 'é', 2 * n, List.replicate n 'é'⟩ = _
    rw [applyEvents]
    rw [show applyEvent ⟨List.replicate n 'é', 2 * n, List.replicate n 'é'⟩
          (PEvent.insertChar 'é') =
        update_filter ⟨List.replicate n 'é', 2 * n, List.replicate n 'é'⟩ 'é' from rfl, hstep]
    show applyEvents [PEvent.moveToLineEnd]
        ⟨List.replicate (n + 1) 'é', 2 * n + 1, List.replicate (n + 1) 'é'⟩ = _
    show some (⟨List.replicate (n + 1) 'é',
        if utf8Len (List.replicate (n + 1) 'é') ≤ 65535
        then utf8Len (List.replicate (n + 1) 'é') else 0,
        List.replicate (n + 1) 'é'⟩ : PState) = _
    rw [hlen', if_pos (by omega : 2 * (n + 1) ≤ 65535)]

/-- Claim C10 is false on the code: 32767 rounds of typing the two-byte
character `é` followed by `MoveToLineEnd` reach a 65534-byte filter without
ever hitting the `== 65535` guard, and one further insertion is accepted and
carries the filter to 65536 bytes — beyond `u16::MAX` — with no panic and no
`u16` overflow along the way. -/
theorem C10_counterexample :
    applyEvents (rounds 32767 ++ [PEvent.insertChar 'é']) ⟨[], 0, []⟩ =
      some ⟨List.replicate 32768 'é', 65535, List.replicate 32768 'é'⟩
    ∧ utf8Len (List.replicate 32768 'é') = 65536 := by
  have hsize : ('é' : Char).utf8Size = 2 := by decide
  have hlen : utf8Len (List.replicate 32767 'é') = 65534 := by
    rw [utf8Len_replicate, hsize]
  have hlen' : utf8Len (List.replicate 32768 'é') = 65536 := by
    rw [utf8Len_replicate, hsize]
  constructor
  · rw [applyEvents_append, rounds_state 32767 le_rfl]
    have h2 : 2 * 32767 = 65534 := by norm_num
    have hins : insertByte (List.replicate 32767 'é') (2 * 32767) 'é' =
        some (List.replicate 32768 'é') := by
      rw [h2, ← hlen, insertByte_at_end, ← List.replicate_succ' 32767 'é']
    have hstep := update_filter_grow (List.replicate 32767 'é') (2 * 32767)
      (List.replicate 32767 'é') (List.replicate 32768 'é') (by omega) hins (by omega)
    show applyEvents [PEvent.insertChar 'é']
        ⟨List.replicate 32767 'é', 2 * 32767, List.replicate 32767 'é'⟩ = _
    rw [applyEvents]
    rw [show applyEvent ⟨List.replicate 32767 'é', 2 * 32767, List.replicate 32767 'é'⟩
          (PEvent.insertChar 'é') =
        update_filter ⟨List.replicate 32767 'é', 2 * 32767, List.replicate 32767 'é'⟩ 'é'
        from rfl, hstep]
    show some (⟨List.replicate 32768 'é', 2 * 32767 + 1, List.replicate 32768 'é'⟩ : PState) = _
    rw [show 2 * 32767 + 1 = 65535 by norm_num]
  · exact hlen'

/-- Claim C10, amended: an insertion is silently ignored (filter, cursor and
matcher pattern unchanged) exactly when the filter is 65535 bytes long at that
moment, so with single-byte characters the filter can never exceed 65535
bytes; but an insertion of a multi-byte character can jump the length past
65535, after which the cap no longer engages and the filter grows beyond
65535 bytes. -/
theorem C10_amended (st : PState) (c : Char) :
    (utf8Len st.filter = 65535 → update_filter st c = some st)
    ∧ ∀ (evs : List PEvent) (st0 st' : PState),
        (∀ ch, PEvent.insertChar ch ∈ evs → Char.utf8Size ch = 1) →
        utf8Len st0.filter ≤ 65535 → applyEvents evs st0 = some st' →
        utf8Len st'.filter ≤ 65535 := by
  constructor
  · intro h
    rw [update_filter, if_pos h]
  · intro evs
    induction evs with
    | nil =>
      intro st0 st' _ hb h
      simp only [applyEvents, Option.some.injEq] at h
      subst h
      exact hb
    | cons e es ih =>
      intro st0 st' hmem hb h
      rw [applyEvents] at h
      cases e with
      | insertChar ch =>
        have hch : Char.utf8Size ch = 1 := hmem ch (by simp)
        simp only [applyEvent] at h
        by_cases hg : utf8Len st0.filter = 65535
        · rw [update_filter, if_pos hg] at h
          replace h : applyEvents es st0 = some st' := h
          exact ih st0 st' (fun x hx => hmem x (by simp [hx])) hb h
        · rw [update_filter, if_neg hg] at h
          cases hins : insertByte st0.filter st0.cursor ch with
          | none =>
            rw [hins] at h
            exact absurd h (by simp)
          | some f =>
            rw [hins] at h
            replace h :
                (match (if st0.cursor + 1 ≤ 65535 then
                    some (⟨f, st0.cursor + 1, f⟩ : PState) else none) with
                  | none => none
                  | some st'' => applyEvents es st'') = some st' := h
            by_cases hc : st0.cursor + 1 ≤ 65535
            · rw [if_pos hc] at h
              replace h : applyEvents es ⟨f, st0.cursor + 1, f⟩ = some st' := h
              have hf : utf8Len f = utf8Len st0.filter + 1 := by
                rw [insertByte_utf8Len st0.filter st0.cursor ch f hins, hch]
              refine ih ⟨f, st0.cursor + 1, f⟩ st' (fun x hx => hmem x (by simp [hx])) ?_ h
              show utf8Len f ≤ 65535
              omega
            · rw [if_neg hc] at h
              exact absurd h (by simp)
      | moveToLineEnd =>
        simp only [applyEvent] at h
        replace h : applyEvents es (move_to_end st0) = some st' := h
        refine ih (move_to_end st0) st' (fun x hx => hmem x (by simp [hx])) ?_ h
        show utf8Len st0.filter ≤ 65535
        exact hb

/-- Witness for `C10_amended`: at exactly 65535 bytes an insertion is a no-op,
and a single one-byte insertion from the empty filter stays within the cap. -/
theorem C10_amended_witness :
    update_filter ⟨List.replicate 65535 'a', 0, []⟩ 'b' =
      some ⟨List.replicate 65535 'a', 0, []⟩
    ∧ utf8Len ((⟨['a'], 1, ['a']⟩ : PState)).filter ≤ 65535 :=
  ⟨(C10_amended ⟨List.replicate 65535 'a', 0, []⟩ 'b').1
      (by rw [show (⟨List.replicate 65535 'a', 0, []⟩ : PState).filter =
            List.replicate 65535 'a' from rfl, utf8Len_replicate]; rfl),
    (C10_amended ⟨[], 0, []⟩ 'x').2 [PEvent.insertChar 'a'] ⟨[], 0, []⟩ ⟨['a'], 1, ['a']⟩
      (by intro ch h; simp at h; subst h; decide)
      (by simp [utf8Len]) (by decide)⟩

/-! ## Claims C4 and C8: the ANSI converter -/

theorem stripCr_mem (P : Char → Prop) :
    ∀ l, (∀ c ∈ l, P c) → ∀ c ∈ stripCr l, P c := by
  intro l
  induction l with
  | nil => intro _ c hc; simp [stripCr] at hc
  | cons a rest ih =>
    intro h c hc
    rw [stripCr] at hc
    by_cases hcase : rest = [] ∧ a = '\r'
    · rw [if_pos hcase] at hc
      simp at hc
    · rw [if_neg hcase] at hc
      rcases List.mem_cons.mp hc with h1 | h2
      · exact h c (by simp [h1])
      · exact ih (fun x hx => h x (by simp [hx])) c h2

theorem splitNl_mem (P : Char → Prop) :
    ∀ cs, (∀ c ∈ cs, P c) → ∀ p ∈ splitNl cs, ∀ c ∈ p, P c := by
  intro cs
  induction cs with
  | nil =>
    intro _ p hp c hc
    simp [splitNl] at hp
    subst hp
    simp at hc
  | cons a rest ih =>
    intro h p hp c hc
    rw [splitNl] at hp
    cases hs : splitNl rest with
    | nil => rw [hs] at hp; simp at hp
    | cons hd tl =>
      rw [hs] at hp
      replace hp : p ∈ (if a = '\n' then [] :: hd :: tl else (a :: hd) :: tl) := hp
      have hrest : ∀ q ∈ splitNl rest, ∀ x ∈ q, P x :=
        ih (fun x hx => h x (by simp [hx]))
      by_cases ha : a = '\n'
      · rw [if_pos ha] at hp
        rcases List.mem_cons.mp hp with h1 | h2
        · subst h1; simp at hc
        · exact hrest p (by rw [hs]; exact h2) c hc
      · rw [if_neg ha] at hp
        rcases List.mem_cons.mp hp with h1 | h2
        · subst h1
          rcases List.mem_cons.mp hc with h3 | h4
          · exact h c (by simp [h3])
          · exact hrest hd (by rw [hs]; simp) c h4
        · exact hrest p (by rw [hs]; simp [h2]) c hc

theorem linesPieces_mem (P : Char → Prop) :
    ∀ ps, (∀ q ∈ ps, ∀ c ∈ q, P c) → ∀ p ∈ linesPieces ps, ∀ c ∈ p, P c := by
  intro ps
  induction ps with
  | nil => intro _ p hp; simp [linesPieces] at hp
  | cons pc rest ih =>
    intro h p hp c hc
    cases rest with
    | nil =>
      rw [linesPieces] at hp
      by_cases hlast : pc = []
      · rw [if_pos hlast] at hp
        simp at hp
      · rw [if_neg hlast] at hp
        simp at hp
        subst hp
        exact h p (by simp) c hc
    | cons nx tl =>
      rw [linesPieces] at hp
      rcases List.mem_cons.mp hp with h1 | h2
      · subst h1
        exact stripCr_mem P pc (h pc (by simp)) c hc
      · exact ih (fun q hq x hx => h q (by simp [hq]) x hx) p h2 c hc

theorem rustLines_mem (P : Char → Prop) (cs : List Char) (h : ∀ c ∈ cs, P c) :
    ∀ p ∈ rustLines cs, ∀ c ∈ p, P c := by
  rw [rustLines]
  exact linesPieces_mem P (splitNl cs) (splitNl_mem P cs h)

theorem processLine_mem (pa : String → Option ParsedColor) (cw : Char → Nat) (max : Nat)
    (P : Char → Prop) :
    ∀ (cs : List Char) (ansi : Bool) (st : TStyle) (tsp : List Char) (spans : List TSpan),
      (∀ c ∈ cs, P c) → (∀ c ∈ tsp, P c) →
      (∀ sp ∈ spans, ∀ c ∈ sp.1, P c) →
      (∀ sp ∈ (processLine pa cw max cs ansi st tsp spans).1, ∀ c ∈ sp.1, P c)
      ∧ (∀ c ∈ (processLine pa cw max cs ansi st tsp spans).2.2, P c) := by
  intro cs
  induction cs with
  | nil =>
    intro ansi st tsp spans _ htsp hspans
    rw [processLine]
    exact ⟨hspans, htsp⟩
  | cons ch rest ih =>
    intro ansi st tsp spans hcs htsp hspans
    have hch : P ch := hcs ch (by simp)
    have hrest : ∀ c ∈ rest, P c := fun c hc => hcs c (by simp [hc])
    rw [processLine]
    cases ansi with
    | true =>
      rw [if_pos rfl]
      by_cases h1 : ch = '['
      · rw [if_pos h1]
        exact ih true st tsp spans hrest htsp hspans
      · rw [if_neg h1]
        by_cases h2 : ch = 'm'
        · rw [if_pos h2]
          exact ih false _ [] spans hrest (by simp) hspans
        · rw [if_neg h2]
          exact ih true st (tsp ++ [ch]) spans hrest
            (fun c hc => by
              rcases List.mem_append.mp hc with h3 | h4
              · exact htsp c h3
              · simp at h4; subst h4; exact hch)
            hspans
    | false =>
      rw [if_neg (by simp)]
      by_cases hesc : ch = '\x1b' ∧ rest.head? = some '['
      · rw [if_pos hesc]
        have hspans' : ∀ sp ∈ (if tsp ≠ [] then spans ++ [(tsp, st)] else spans),
            ∀ c ∈ sp.1, P c := by
          by_cases ht : tsp ≠ []
          · rw [if_pos ht]
            intro sp hsp
            rcases List.mem_append.mp hsp with h3 | h4
            · exact hspans sp h3
            · simp at h4
              subst h4
              exact htsp
          · rw [if_neg ht]
            exact hspans
        exact ih true st [] _ hrest (by simp) hspans'
      · rw [if_neg hesc]
        have htsp' : ∀ c ∈ tsp ++ [ch], P c := fun c hc => by
          rcases List.mem_append.mp hc with h3 | h4
          · exact htsp c h3
          · simp at h4; subst h4; exact hch
        by_cases hflush : lineWidth cw spans + (tsp ++ [ch]).length = max ∨ rest = []
        · rw [if_pos hflush]
          refine ⟨?_, by simp⟩
          intro sp hsp
          rcases List.mem_append.mp hsp with h3 | h4
          · exact hspans sp h3
          · simp at h4
            subst h4
            exact htsp'
        · rw [if_neg hflush]
          exact ih false st (tsp ++ [ch]) spans hrest htsp' hspans

theorem linesGo_mem (pa : String → Option ParsedColor) (cw : Char → Nat) (max : Nat)
    (P : Char → Prop) :
    ∀ (ls : List (List Char)) (st : TStyle) (tsp : List Char),
      (∀ l ∈ ls, ∀ c ∈ l, P c) → (∀ c ∈ tsp, P c) →
      ∀ line ∈ linesGo pa cw max ls st tsp, ∀ sp ∈ line, ∀ c ∈ sp.1, P c := by
  intro ls
  induction ls with
  | nil => intro st tsp _ _ line hline; simp [linesGo] at hline
  | cons l ls ih =>
    intro st tsp hls htsp line hline sp hsp c hc
    have hl : ∀ c ∈ l, P c := hls l (by simp)
    have hpl := processLine_mem pa cw max P l false st tsp [] hl htsp (by simp)
    rw [linesGo] at hline
    rcases List.mem_cons.mp hline with h1 | h2
    · subst h1
      exact hpl.1 sp hsp c hc
    · exact ih _ _ (fun x hx => hls x (by simp [hx])) hpl.2 line h2 sp hsp c hc

theorem linesGo_length (pa : String → Option ParsedColor) (cw : Char → Nat) (max : Nat) :
    ∀ (ls : List (List Char)) (st : TStyle) (tsp : List Char),
      (linesGo pa cw max ls st tsp).length = ls.length := by
  intro ls
  induction ls with
  | nil => intro st tsp; rfl
  | cons l ls ih =>
    intro st tsp
    rw [linesGo]
    simp only [List.length_cons, ih]

/-- Claim C4 is false on the code: converting `"abcd"` at width 2 flushes the
run `"ab"` and then `break`s out of the line loop, producing a single output
line and dropping the remaining characters `c` and `d` entirely — no second
output line is started. -/
theorem C4_counterexample :
    str_to_text paNone cwOne "abcd" 2 = [[(['a', 'b'], {})]]
    ∧ (str_to_text paNone cwOne "abcd" 2).length = 1
    ∧ ∀ line ∈ str_to_text paNone cwOne "abcd" 2, ∀ sp ∈ line, 'c' ∉ sp.1 := by
  decide

/-- Claim C4, amended: when accumulating plain text reaches the maximum
column width, the current run is flushed and the rest of that source line is
discarded (the loop `break`s): the converter clamps instead of hard-wrapping,
and every source line produces exactly one output line. -/
theorem C4_amended :
    (∀ (pa : String → Option ParsedColor) (cw : Char → Nat) (s : String) (max : Nat),
      (str_to_text pa cw s max).length = (rustLines s.data).length)
    ∧ str_to_text paNone cwOne "abcd" 2 = [[(['a', 'b'], {})]] := by
  constructor
  · intro pa cw s max
    rw [str_to_text]
    exact linesGo_length pa cw max (rustLines s.data) {} []
  · decide

/-- Claim C8: the ANSI round trip. Converting `"\x1b[31mred\x1b[0m plain"` at
a width larger than the text yields one styled line of exactly two runs,
`"red"` under a red foreground and `" plain"` under the default style (the
`0` reset parameter restores every attribute to its default); and for any
input and any width every run of every output line is made of whole
codepoints of the input — the width budget never splits a codepoint, because
the converter works character by character. -/
theorem C8_ansi_roundtrip :
    str_to_text paNone cwOne "\x1b[31mred\x1b[0m plain" 1000 =
      [[(['r', 'e', 'd'], { fg := TColor.red }), ([' ', 'p', 'l', 'a', 'i', 'n'], {})]]
    ∧ ∀ (pa : String → Option ParsedColor) (cw : Char → Nat) (s : String) (max : Nat),
        ∀ line ∈ str_to_text pa cw s max, ∀ sp ∈ line, ∀ c ∈ sp.1, c ∈ s.data := by
  constructor
  · decide
  · intro pa cw s max line hline sp hsp c hc
    have hlines := rustLines_mem (fun c => c ∈ s.data) s.data (fun c hc => hc)
    rw [str_to_text] at hline
    exact linesGo_mem pa cw max (fun c => c ∈ s.data) (rustLines s.data) {} []
      hlines (by simp) line hline sp hsp c hc

/-- Witness for `C8_ansi_roundtrip`: in the converted text of `"ab"`, every
run character is a codepoint of the input. -/
theorem C8_ansi_roundtrip_witness : 'a' ∈ ("ab" : String).data :=
  C8_ansi_roundtrip.2 paNone cwOne "ab" 10
    [(['a', 'b'], {})] (by decide) (['a', 'b'], {}) (by decide) 'a' (by decide)

/-! ## Claim C5: idempotence of the resolver -/

/-- Claim C5 is false on the code: on the three paths of `sessIdem` the first
run produces the (unique) labels `z/r/m/proj`, `b0/r/y/proj`, `a0/x/m/proj`,
but a second run on that output pops the stack in the opposite order, the
probe of `z/r/m/proj` no longer sees both of its depth-1/depth-2 partners,
the group maximum drops from 3 to 2, and every candidate is relabelled. -/
theorem C5_counterexample :
    (deduplicate_sessions sessIdem).map Session.name =
      ["z/r/m/proj", "b0/r/y/proj", "a0/x/m/proj"]
    ∧ (deduplicate_sessions (deduplicate_sessions sessIdem)).map Session.name =
      ["x/m/proj", "r/y/proj", "r/m/proj"]
    ∧ ¬ ∀ s ∈ deduplicate_sessions (deduplicate_sessions sessIdem),
        ∀ t ∈ deduplicate_sessions sessIdem, s.path = t.path → s.name = t.name := by
  decide

theorem probeGo_empty_rest (d : Nat) (rem : List String) : probeGo [] d rem = d := by
  cases rem with
  | nil => rfl
  | cons cur rem =>
    rw [probeGo]
    simp

theorem probeGo_congr_one (x y : Session) (hxy : x.path = y.path) :
    ∀ (rem : List String) (d : Nat), probeGo [x] d rem = probeGo [y] d rem := by
  intro rem
  induction rem with
  | nil => intro d; rfl
  | cons cur rem ih =>
    intro d
    rw [probeGo, probeGo]
    have hcond : ([x].any (fun s => revNth s.path d == some cur)) =
        ([y].any (fun s => revNth s.path d == some cur)) := by
      simp [hxy]
    rw [hcond]
    by_cases h : ([y].any (fun s => revNth s.path d == some cur)) = true
    · rw [if_pos h, if_pos h, ih]
    · rw [if_neg h, if_neg h]

theorem probeGo_pair_symm (x y : Session) :
    ∀ (k d : Nat), y.path.length - d ≤ k →
      probeGo [x] d (y.path.reverse.drop d) = probeGo [y] d (x.path.reverse.drop d) := by
  intro k
  induction k with
  | zero =>
    intro d hk
    have hlen : y.path.length ≤ d := by omega
    have hdrop : y.path.reverse.drop d = [] := by
      rw [List.drop_eq_nil_iff_le, List.length_reverse]
      exact hlen
    rw [hdrop]
    cases hq : x.path.reverse.drop d with
    | nil => rfl
    | cons cq remq =>
      show d = probeGo [y] d (cq :: remq)
      rw [probeGo]
      have hnone : revNth y.path d = none := by
        rw [revNth, List.get?_eq_none, List.length_reverse]
        exact hlen
      rw [if_neg (by simp [hnone])]
  | succ k ih =>
    intro d hk
    by_cases hdy : y.path.length ≤ d
    · have hdrop : y.path.reverse.drop d = [] := by
        rw [List.drop_eq_nil_iff_le, List.length_reverse]
        exact hdy
      rw [hdrop]
      cases hq : x.path.reverse.drop d with
      | nil => rfl
      | cons cq remq =>
        show d = probeGo [y] d (cq :: remq)
        rw [probeGo]
        have hnone : revNth y.path d = none := by
          rw [revNth, List.get?_eq_none, List.length_reverse]
          exact hdy
        rw [if_neg (by simp [hnone])]
    · have hdy' : d < y.path.reverse.length := by rw [List.length_reverse]; omega
      obtain ⟨cp, remp, hp⟩ : ∃ cp remp, y.path.reverse.drop d = cp :: remp :=
        ⟨_, _, List.drop_eq_get_cons hdy'⟩
      have hcp : y.path.reverse[d]? = some cp := by
        have h0 := List.getElem?_drop y.path.reverse d 0
        rw [hp] at h0
        simpa using h0.symm
      cases hq : x.path.reverse.drop d with
      | nil =>
        rw [hp]
        show probeGo [x] d (cp :: remp) = d
        rw [probeGo]
        have hxlen : x.path.reverse.length ≤ d := by
          rw [← List.drop_eq_nil_iff_le, hq]
        have hnone : revNth x.path d = none := by
          rw [revNth, List.get?_eq_none]
          exact hxlen
        rw [if_neg (by simp [hnone])]
      | cons cq remq =>
        have hcq : x.path.reverse[d]? = some cq := by
          have h0 := List.getElem?_drop x.path.reverse d 0
          rw [hq] at h0
          simpa using h0.symm
        rw [hp, probeGo, probeGo]
        have hrp : remp = y.path.reverse.drop (d + 1) := by
          have h1 := List.drop_drop 1 d y.path.reverse
          rw [hp] at h1
          simpa using h1
        have hrq : remq = x.path.reverse.drop (d + 1) := by
          have h1 := List.drop_drop 1 d x.path.reverse
          rw [hq] at h1
          simpa using h1
        by_cases heq : cp = cq
        · subst heq
          rw [if_pos (by simp [revNth, hcq]), if_pos (by simp [revNth, hcp])]
          rw [hrp, hrq]
          exact ih (d + 1) (by omega)
        · rw [if_neg (by simp [revNth, hcq]; exact fun h => heq h.symm),
            if_neg (by simp [revNth, hcp]; exact fun h => heq h)]

theorem probeDepth_symm (x y : Session) :
    probeDepth [x] y.path = probeDepth [y] x.path := by
  rw [probeDepth, probeDepth]
  exact probeGo_pair_symm x y y.path.length 1 (by omega)

theorem probeDepth_congr_one (x y : Session) (hxy : x.path = y.path) (p : List String) :
    probeDepth [x] p = probeDepth [y] p := by
  rw [probeDepth, probeDepth]
  exact probeGo_congr_one x y hxy _ 1

theorem relabel_path (D : Nat) (s : Session) : (relabel D s).path = s.path := rfl

theorem relabel_relabel (D E : Nat) (s : Session) :
    relabel D (relabel E s) = relabel D s := rfl

theorem deduplicate_sessions_def (l : List Session) :
    deduplicate_sessions l =
      (dedupPops l.reverse 1).1.map (relabel (dedupPops l.reverse 1).2) := rfl

theorem dedupPops_singleton (x : Session) (d0 : Nat) :
    dedupPops [x] d0 = ([x], max d0 1) := by
  simp [dedupPops, probeDepth, probeGo_empty_rest]

theorem dedupPops_pair (x y : Session) (d0 : Nat) :
    dedupPops [x, y] d0 = ([x, y], max (max d0 (probeDepth [y] x.path)) 1) := by
  simp [dedupPops, probeDepth, probeGo_empty_rest]

/-- Claim C5, amended: the resolver is not idempotent in general (see the
three-candidate counterexample), but it is for groups of at most two
candidates: re-running it on its own output reassigns to every candidate
exactly the label it already has, and only reverses the list order once
more. -/
theorem C5_amended (l : List Session) (hlen : l.length ≤ 2) :
    deduplicate_sessions (deduplicate_sessions l) = (deduplicate_sessions l).reverse := by
  match l with
  | [] => rfl
  | [a] =>
    have h1 : deduplicate_sessions [a] = [relabel (max 1 1) a] := by
      rw [deduplicate_sessions_def]
      rw [show ([a] : List Session).reverse = [a] from rfl, dedupPops_singleton]
      rfl
    rw [h1]
    rw [deduplicate_sessions_def]
    rw [show ([relabel (max 1 1) a] : List Session).reverse = [relabel (max 1 1) a] from rfl,
      dedupPops_singleton]
    rw [show ([relabel (max 1 1) a] : List Session).map (relabel (max 1 1)) =
        [relabel (max 1 1) (relabel (max 1 1) a)] from rfl]
    rw [relabel_relabel]
  | [a, b] =>
    have hD : ∀ E : Nat, max (max 1 (probeDepth [relabel E b] (relabel E a).path)) 1 =
        max (max 1 (probeDepth [a] b.path)) 1 := by
      intro E
      rw [relabel_path, probeDepth_congr_one (relabel E b) b rfl a.path,
        probeDepth_symm b a]
    have h1 : deduplicate_sessions [a, b] =
        [relabel (max (max 1 (probeDepth [a] b.path)) 1) b,
         relabel (max (max 1 (probeDepth [a] b.path)) 1) a] := by
      rw [deduplicate_sessions_def]
      rw [show ([a, b] : List Session).reverse = [b, a] by simp, dedupPops_pair]
      rfl
    rw [h1]
    rw [deduplicate_sessions_def]
    rw [show ([relabel (max (max 1 (probeDepth [a] b.path)) 1) b,
          relabel (max (max 1 (probeDepth [a] b.path)) 1) a] : List Session).reverse =
        [relabel (max (max 1 (probeDepth [a] b.path)) 1) a,
         relabel (max (max 1 (probeDepth [a] b.path)) 1) b] by simp,
      dedupPops_pair]
    rw [show (([relabel (max (max 1 (probeDepth [a] b.path)) 1) a,
          relabel (max (max 1 (probeDepth [a] b.path)) 1) b],
          max (max 1 (probeDepth [relabel (max (max 1 (probeDepth [a] b.path)) 1) b]
            (relabel (max (max 1 (probeDepth [a] b.path)) 1) a).path)) 1) :
          List Session × Nat).1 =
        [relabel (max (max 1 (probeDepth [a] b.path)) 1) a,
         relabel (max (max 1 (probeDepth [a] b.path)) 1) b] from rfl]
    rw [show (([relabel (max (max 1 (probeDepth [a] b.path)) 1) a,
          relabel (max (max 1 (probeDepth [a] b.path)) 1) b],
          max (max 1 (probeDepth [relabel (max (max 1 (probeDepth [a] b.path)) 1) b]
            (relabel (max (max 1 (probeDepth [a] b.path)) 1) a).path)) 1) :
          List Session × Nat).2 =
        max (max 1 (probeDepth [a] b.path)) 1 from hD _]
    rw [show ([relabel (max (max 1 (probeDepth [a] b.path)) 1) a,
          relabel (max (max 1 (probeDepth [a] b.path)) 1) b] : List Session).map
          (relabel (max (max 1 (probeDepth [a] b.path)) 1)) =
        [relabel (max (max 1 (probeDepth [a] b.path)) 1)
            (relabel (max (max 1 (probeDepth [a] b.path)) 1) a),
         relabel (max (max 1 (probeDepth [a] b.path)) 1)
            (relabel (max (max 1 (probeDepth [a] b.path)) 1) b)] from rfl]
    rw [relabel_relabel, relabel_relabel]
  | _ :: _ :: _ :: _ =>
    simp at hlen

/-- Witness for `C5_amended`: a two-candidate group on which the second run
reassigns the labels already present. -/
theorem C5_amended_witness :
    deduplicate_sessions (deduplicate_sessions
        [⟨"proj", ["a", "proj"]⟩, ⟨"proj", ["b", "proj"]⟩]) =
      (deduplicate_sessions [⟨"proj", ["a", "proj"]⟩, ⟨"proj", ["b", "proj"]⟩]).reverse :=
  C5_amended [⟨"proj", ["a", "proj"]⟩, ⟨"proj", ["b", "proj"]⟩] (by decide)

/-! ## Claim C3: uniqueness of the resolver's labels -/

theorem dedupPops_fst : ∀ (l : List Session) (d : Nat), (dedupPops l d).1 = l := by
  intro l
  induction l with
  | nil => intro d; rfl
  | cons s rest ih =>
    intro d
    show s :: (dedupPops rest (max d (probeDepth rest s.path))).1 = s :: rest
    rw [ih]

theorem dedupPops_snd_ge : ∀ (l : List Session) (d : Nat), d ≤ (dedupPops l d).2 := by
  intro l
  induction l with
  | nil => intro d; exact le_refl d
  | cons s rest ih =>
    intro d
    have h := ih (max d (probeDepth rest s.path))
    have h2 : (dedupPops (s :: rest) d).2 =
        (dedupPops rest (max d (probeDepth rest s.path))).2 := rfl
    rw [h2]
    exact le_trans (le_max_left _ _) h

theorem dedupPops_ge_probe :
    ∀ (l1 : List Session) (s : Session) (l2 : List Session) (d : Nat),
      probeDepth l2 s.path ≤ (dedupPops (l1 ++ s :: l2) d).2 := by
  intro l1
  induction l1 with
  | nil =>
    intro s l2 d
    rw [List.nil_append]
    have h1 : (dedupPops (s :: l2) d).2 =
        (dedupPops l2 (max d (probeDepth l2 s.path))).2 := rfl
    rw [h1]
    exact le_trans (le_max_right _ _) (dedupPops_snd_ge l2 _)
  | cons x l1 ih =>
    intro s l2 d
    rw [List.cons_append]
    have h1 : (dedupPops (x :: (l1 ++ s :: l2)) d).2 =
        (dedupPops (l1 ++ s :: l2) (max d (probeDepth (l1 ++ s :: l2) x.path))).2 := rfl
    rw [h1]
    exact ih s l2 _

theorem cslRev_get_eq : ∀ (xs ys : List String) (i : Nat), i < cslRev xs ys →
    xs[i]? = ys[i]? ∧ ∃ v, xs[i]? = some v := by
  intro xs
  induction xs with
  | nil =>
    intro ys i h
    rw [show cslRev [] ys = 0 from rfl] at h
    omega
  | cons a as ih =>
    intro ys i h
    cases ys with
    | nil =>
      rw [show cslRev (a :: as) [] = 0 from rfl] at h
      omega
    | cons b bs =>
      rw [show cslRev (a :: as) (b :: bs) = if a = b then cslRev as bs + 1 else 0 from rfl] at h
      by_cases hab : a = b
      · rw [if_pos hab] at h
        cases i with
        | zero =>
          subst hab
          exact ⟨by simp, a, by simp⟩
        | succ i =>
          have h2 := ih bs i (by omega)
          simpa using h2
      · rw [if_neg hab] at h
        omega

theorem cslRev_stop : ∀ (xs ys : List String),
    xs[cslRev xs ys]? = ys[cslRev xs ys]? → xs[cslRev xs ys]? = none := by
  intro xs
  induction xs with
  | nil => intro ys _; rfl
  | cons a as ih =>
    intro ys h
    cases ys with
    | nil =>
      rw [show cslRev (a :: as) [] = 0 from rfl] at h ⊢
      simp at h
    | cons b bs =>
      by_cases hab : a = b
      · have hc : cslRev (a :: as) (b :: bs) = cslRev as bs + 1 := by
          rw [show cslRev (a :: as) (b :: bs) = if a = b then cslRev as bs + 1 else 0 from rfl,
            if_pos hab]
        rw [hc] at h ⊢
        simp only [List.getElem?_cons_succ] at h ⊢
        exact ih bs h
      · have hc : cslRev (a :: as) (b :: bs) = 0 := by
          rw [show cslRev (a :: as) (b :: bs) = if a = b then cslRev as bs + 1 else 0 from rfl,
            if_neg hab]
        rw [hc] at h ⊢
        simp at h
        exact absurd h hab

theorem probeGo_ge : ∀ (rem : List String) (rest : List Session) (d : Nat),
    d ≤ probeGo rest d rem := by
  intro rem
  induction rem with
  | nil => intro rest d; exact le_refl d
  | cons cur rem ih =>
    intro rest d
    rw [probeGo]
    by_cases h : rest.any (fun s => revNth s.path d == some cur) = true
    · rw [if_pos h]
      exact le_trans (by omega) (ih rest (d + 1))
    · rw [if_neg h]

theorem probeGo_reach (rest : List Session) (q : Session) (hq : q ∈ rest) (p : List String) :
    ∀ (k d : Nat), d ≤ cslRev p.reverse q.path.reverse →
      cslRev p.reverse q.path.reverse - d ≤ k →
      cslRev p.reverse q.path.reverse ≤ probeGo rest d (p.reverse.drop d) := by
  intro k
  induction k with
  | zero =>
    intro d h2 h3
    have h4 := probeGo_ge (p.reverse.drop d) rest d
    omega
  | succ k ih =>
    intro d h2 h3
    by_cases hdc : d = cslRev p.reverse q.path.reverse
    · have h4 := probeGo_ge (p.reverse.drop d) rest d
      omega
    · have hdlt : d < cslRev p.reverse q.path.reverse := by omega
      obtain ⟨heq, v, hv⟩ := cslRev_get_eq p.reverse q.path.reverse d hdlt
      have hvq : q.path.reverse[d]? = some v := by rw [← heq]; exact hv
      have hdlen : d < p.reverse.length := by
        by_contra hcon
        have h5 : p.reverse[d]? = none := List.getElem?_eq_none (by omega)
        rw [h5] at hv
        simp at hv
      have h4 : p.reverse[d] = v := by
        have h5 := List.getElem?_eq_getElem hdlen
        rw [hv] at h5
        exact (Option.some_inj.mp h5).symm
      have hdropc : p.reverse.drop d = v :: p.reverse.drop (d + 1) := by
        rw [List.drop_eq_getElem_cons hdlen, h4]
      rw [hdropc, probeGo]
      have hcond : rest.any (fun s => revNth s.path d == some v) = true := by
        rw [List.any_eq_true]
        exact ⟨q, hq, by rw [revNth]; simp [hvq]⟩
      rw [if_pos hcond]
      exact ih (d + 1) hdlt (by omega)

theorem probeDepth_ge_csl (rest : List Session) (q : Session) (hq : q ∈ rest)
    (p : List String) (hcsl : 1 ≤ cslRev p.reverse q.path.reverse) :
    cslRev p.reverse q.path.reverse ≤ probeDepth rest p := by
  rw [probeDepth]
  exact probeGo_reach rest q hq p (cslRev p.reverse q.path.reverse) 1 hcsl (by omega)

theorem joinComps_cons_ne (x : String) (l : List String) (hl : l ≠ []) :
    joinComps (x :: l) = x ++ "/" ++ joinComps l := by
  cases l with
  | nil => exact absurd rfl hl
  | cons y t => rfl

theorem joinComps_cons_data (x : String) (l : List String) (hl : l ≠ []) :
    (joinComps (x :: l)).data = x.data ++ '/' :: (joinComps l).data := by
  rw [joinComps_cons_ne x l hl, String.data_append, String.data_append]
  simp

theorem joinComps_append_pair : ∀ (xs : List String) (a b : String),
    joinComps (xs ++ [a, b]) = joinComps (xs ++ [a ++ "/" ++ b]) := by
  intro xs
  induction xs with
  | nil => intro a b; rfl
  | cons x xs ih =>
    intro a b
    rw [List.cons_append, List.cons_append,
      joinComps_cons_ne x (xs ++ [a, b]) (by simp),
      joinComps_cons_ne x (xs ++ [a ++ "/" ++ b]) (by simp),
      ih]

theorem buildName_acc : ∀ (r : List String) (n : Nat) (str : String), str ≠ "" →
    buildName n r str = joinComps ((r.take n).reverse ++ [str]) := by
  intro r
  induction r with
  | nil =>
    intro n str _
    cases n with
    | zero => rfl
    | succ n => rfl
  | cons dcomp rest ih =>
    intro n str hstr
    cases n with
    | zero => rfl
    | succ m =>
      rw [show buildName (m + 1) (dcomp :: rest) str =
          buildName m rest (if str = "" then dcomp else dcomp ++ "/" ++ str) from rfl]
      rw [if_neg hstr]
      have hne : dcomp ++ "/" ++ str ≠ "" := by
        intro hcon
        have hlen := congrArg String.length hcon
        rw [String.length_append, String.length_append] at hlen
        have h1 : ("/" : String).length = 1 := rfl
        have h0 : ("" : String).length = 0 := rfl
        omega
      rw [ih m _ hne]
      rw [show ((dcomp :: rest).take (m + 1)) = dcomp :: rest.take m from rfl]
      rw [List.reverse_cons, List.append_assoc]
      rw [show ([dcomp] ++ [str] : List String) = [dcomp, str] from rfl]
      rw [joinComps_append_pair]

theorem buildName_spec (r : List String) (n : Nat) (hr : ∀ c ∈ r, c ≠ "") (hn : 1 ≤ n) :
    buildName n r "" = joinComps ((r.take n).reverse) := by
  cases r with
  | nil =>
    cases n with
    | zero => omega
    | succ m => rfl
  | cons dcomp rest =>
    cases n with
    | zero => omega
    | succ m =>
      rw [show buildName (m + 1) (dcomp :: rest) "" =
          buildName m rest (if ("" : String) = "" then dcomp else dcomp ++ "/" ++ "") from rfl]
      rw [if_pos rfl]
      have hd : dcomp ≠ "" := hr dcomp (by simp)
      rw [buildName_acc rest m dcomp hd]
      rw [show ((dcomp :: rest).take (m + 1)) = dcomp :: rest.take m from rfl,
        List.reverse_cons]

theorem splitSlash : ∀ (xs ys u v : List Char), '/' ∉ xs → '/' ∉ ys →
    xs ++ '/' :: u = ys ++ '/' :: v → xs = ys ∧ u = v := by
  intro xs
  induction xs with
  | nil =>
    intro ys u v _ hys h
    cases ys with
    | nil =>
      rw [List.nil_append, List.nil_append] at h
      injection h with _ h2
      exact ⟨rfl, h2⟩
    | cons y ys' =>
      rw [List.nil_append, List.cons_append] at h
      injection h with h1 _
      exact absurd (by rw [← h1]; exact List.mem_cons_self _ _) hys
  | cons x xs' ih =>
    intro ys u v hxs hys h
    cases ys with
    | nil =>
      rw [List.nil_append, List.cons_append] at h
      injection h with h1 _
      exact absurd (by rw [h1]; exact List.mem_cons_self _ _) hxs
    | cons y ys' =>
      rw [List.cons_append, List.cons_append] at h
      injection h with h1 h2
      obtain ⟨ha, hb⟩ := ih ys' u v (fun hm => hxs (List.mem_cons_of_mem _ hm))
        (fun hm => hys (List.mem_cons_of_mem _ hm)) h2
      exact ⟨by rw [h1, ha], hb⟩

theorem root_head_absurd (a b : String) (J1 J2 : List Char)
    (hva : a.data ≠ [] ∧ '/' ∉ a.data) (hrb : b = "/")
    (hd : a.data ++ '/' :: J1 = b.data ++ '/' :: J2) : False := by
  rw [hrb, show (("/" : String).data) = ['/'] from rfl, List.singleton_append] at hd
  cases ha : a.data with
  | nil => exact hva.1 ha
  | cons a0 as0 =>
    rw [ha, List.cons_append] at hd
    injection hd with h1 _
    exact hva.2 (by rw [ha, h1]; exact List.mem_cons_self _ _)

theorem joinComps_single_ne_many (a b c2 : String) (t2' : List String)
    (hva : (a.data ≠ [] ∧ '/' ∉ a.data) ∨ a = "/")
    (hvb : (b.data ≠ [] ∧ '/' ∉ b.data) ∨ b = "/") :
    joinComps [a] ≠ joinComps (b :: c2 :: t2') := by
  intro h
  have hd := congrArg String.data h
  rw [show joinComps [a] = a from rfl, joinComps_cons_data b (c2 :: t2') (by simp)] at hd
  rcases hva with hva | hra
  · apply hva.2
    rw [hd]
    simp
  · rw [hra, show (("/" : String).data) = ['/'] from rfl] at hd
    obtain ⟨b0, bs, hb⟩ : ∃ b0 bs, b.data = b0 :: bs := by
      rcases hvb with hvb' | hrb
      · cases hbd : b.data with
        | nil => exact absurd hbd hvb'.1
        | cons x xs => exact ⟨x, xs, rfl⟩
      · rw [hrb, show (("/" : String).data) = ['/'] from rfl]
        exact ⟨'/', [], rfl⟩
    rw [hb, List.cons_append] at hd
    injection hd with h1 h2
    simp at h2

theorem joinComps_inj : ∀ (l1 l2 : List String), ValidLabel l1 → ValidLabel l2 →
    joinComps l1 = joinComps l2 → l1 = l2 := by
  intro l1
  induction l1 with
  | nil =>
    intro l2 _ h2 h
    cases l2 with
    | nil => rfl
    | cons b t2 =>
      exfalso
      have hbne : b.data ≠ [] := by
        rcases h2.1 with hv | hroot
        · exact hv.1
        · rw [hroot]; simp
      cases t2 with
      | nil =>
        have hd := congrArg String.data h
        rw [show joinComps [b] = b from rfl] at hd
        exact hbne (by rw [← hd]; rfl)
      | cons c2 t2' =>
        have hd := congrArg String.data h
        rw [joinComps_cons_data b (c2 :: t2') (by simp),
          show ((joinComps []).data) = [] from rfl] at hd
        simp at hd
  | cons a t1 ih =>
    intro l2 h1 h2 h
    cases l2 with
    | nil =>
      exfalso
      have hane : a.data ≠ [] := by
        rcases h1.1 with hv | hroot
        · exact hv.1
        · rw [hroot]; simp
      cases t1 with
      | nil =>
        have hd := congrArg String.data h
        rw [show joinComps [a] = a from rfl] at hd
        exact hane (by rw [hd]; rfl)
      | cons c1 t1' =>
        have hd := congrArg String.data h
        rw [joinComps_cons_data a (c1 :: t1') (by simp),
          show ((joinComps []).data) = [] from rfl] at hd
        simp at hd
    | cons b t2 =>
      cases t1 with
      | nil =>
        cases t2 with
        | nil =>
          rw [show joinComps [a] = a from rfl, show joinComps [b] = b from rfl] at h
          rw [h]
        | cons c2 t2' =>
          exact absurd h (joinComps_single_ne_many a b c2 t2' h1.1 h2.1)
      | cons c1 t1' =>
        cases t2 with
        | nil =>
          exact absurd h.symm (joinComps_single_ne_many b a c1 t1' h2.1 h1.1)
        | cons c2 t2' =>
          have hd := congrArg String.data h
          rw [joinComps_cons_data a (c1 :: t1') (by simp),
            joinComps_cons_data b (c2 :: t2') (by simp)] at hd
          have htail : ValidLabel (c1 :: t1') :=
            ⟨Or.inl (h1.2 c1 (by simp)), fun x hx => h1.2 x (by simp [hx])⟩
          have htail2 : ValidLabel (c2 :: t2') :=
            ⟨Or.inl (h2.2 c2 (by simp)), fun x hx => h2.2 x (by simp [hx])⟩
          rcases h1.1 with hva | hra
          · rcases h2.1 with hvb | hrb
            · obtain ⟨hab, hJ⟩ := splitSlash a.data b.data _ _ hva.2 hvb.2 hd
              have ht := ih (c2 :: t2') htail htail2 (String.ext hJ)
              rw [String.ext hab, ht]
            · exact absurd hd (fun hd => root_head_absurd a b _ _ hva hrb hd)
          · rcases h2.1 with hvb | hrb
            · exact absurd hd.symm (fun hd => root_head_absurd b a _ _ hvb hra hd)
            · have hd2 : '/' :: (joinComps (c1 :: t1')).data =
                  '/' :: (joinComps (c2 :: t2')).data := by
                rw [hra, hrb] at hd
                exact List.append_cancel_left hd
              injection hd2 with _ hJ
              have ht := ih (c2 :: t2') htail htail2 (String.ext hJ)
              rw [hra, hrb, ht]

theorem validCompB_ne_empty (c : String) (h : validCompB c = true) : c ≠ "" := by
  intro hcon
  subst hcon
  exact absurd h (by decide)

theorem validCompP_of_B (c : String) (h : validCompB c = true) : validCompP c := by
  rw [validCompB, Bool.and_eq_true, Bool.not_eq_true', Bool.not_eq_true'] at h
  constructor
  · intro hcon
    have h1 := h.1
    rw [hcon] at h1
    simp at h1
  · intro hmem
    have h4 : c.data.contains '/' = true := List.elem_iff.mpr hmem
    rw [h.2] at h4
    simp at h4

theorem validPathB_ne_empty (p : List String) (hp : validPathB p = true) :
    ∀ c ∈ p, c ≠ "" := by
  cases p with
  | nil => simp [validPathB] at hp
  | cons c rest =>
    rw [validPathB, Bool.and_eq_true, Bool.or_eq_true, List.all_eq_true] at hp
    intro x hx
    rcases List.mem_cons.mp hx with h1 | h2
    · subst h1
      rcases hp.1 with h | h
      · exact validCompB_ne_empty x h
      · rw [show (x == "/") = true ↔ x = "/" from beq_iff_eq] at h
        subst h
        decide
    · exact validCompB_ne_empty x (hp.2 x h2)

theorem validLabel_of_all (l : List String) (h : ∀ x ∈ l, validCompP x) : ValidLabel l := by
  cases l with
  | nil => trivial
  | cons c t => exact ⟨Or.inl (h c (by simp)), fun x hx => h x (by simp [hx])⟩

theorem validLabel_take (p : List String) (hp : validPathB p = true) (k : Nat) :
    ValidLabel ((p.reverse.take k).reverse) := by
  cases p with
  | nil => simp [validPathB] at hp
  | cons c rest =>
    have hp' : (validCompB c = true ∨ c = "/") ∧ ∀ x ∈ rest, validCompB x = true := by
      rw [validPathB, Bool.and_eq_true, Bool.or_eq_true, List.all_eq_true] at hp
      refine ⟨?_, hp.2⟩
      rcases hp.1 with h | h
      · exact Or.inl h
      · exact Or.inr (by simpa using h)
    by_cases hk : (c :: rest).length ≤ k
    · have htake : (c :: rest).reverse.take k = (c :: rest).reverse := by
        apply List.take_of_length_le
        rw [List.length_reverse]
        exact hk
      rw [htake, List.reverse_reverse]
      show (validCompP c ∨ c = "/") ∧ ∀ x ∈ rest, validCompP x
      exact ⟨hp'.1.imp (validCompP_of_B c) id,
        fun x hx => validCompP_of_B x (hp'.2 x hx)⟩
    · apply validLabel_of_all
      intro x hx
      rw [List.mem_reverse] at hx
      have hx2 : x ∈ rest.reverse.take k := by
        rw [show (c :: rest).reverse = rest.reverse ++ [c] by simp] at hx
        rw [List.take_append_of_le_length (by rw [List.length_reverse]; simp at hk; omega)]
          at hx
        exact hx
      have hx3 : x ∈ rest := by
        have h5 := List.mem_of_mem_take hx2
        rwa [List.mem_reverse] at h5
      exact validCompP_of_B x (hp'.2 x hx3)

theorem cslRev_pos (p q : List String) (hp : p ≠ []) (hq : q ≠ [])
    (h : revNth p 0 = revNth q 0) : 1 ≤ cslRev p.reverse q.reverse := by
  cases hpr : p.reverse with
  | nil => exact absurd (by simpa using hpr) hp
  | cons a as =>
    cases hqr : q.reverse with
    | nil => exact absurd (by simpa using hqr) hq
    | cons b bs =>
      have ha : revNth p 0 = some a := by rw [revNth, hpr]; rfl
      have hb : revNth q 0 = some b := by rw [revNth, hqr]; rfl
      have hab : a = b := by
        rw [ha, hb] at h
        exact Option.some_inj.mp h
      rw [show cslRev (a :: as) (b :: bs) = if a = b then cslRev as bs + 1 else 0 from rfl,
        if_pos hab]
      omega

theorem take_rev_ne (p q : List String) (hne : p ≠ q) (D : Nat)
    (hD : cslRev p.reverse q.reverse ≤ D) :
    p.reverse.take (D + 1) ≠ q.reverse.take (D + 1) := by
  intro hcon
  by_cases hc : p.reverse[cslRev p.reverse q.reverse]? = q.reverse[cslRev p.reverse q.reverse]?
  · have hnone := cslRev_stop p.reverse q.reverse hc
    have hnone2 : q.reverse[cslRev p.reverse q.reverse]? = none := by
      rw [← hc]
      exact hnone
    rw [List.getElem?_eq_none_iff] at hnone hnone2
    apply hne
    have hrev : p.reverse = q.reverse := by
      apply List.ext_get?
      intro i
      rw [List.get?_eq_getElem?, List.get?_eq_getElem?]
      by_cases hi : i < cslRev p.reverse q.reverse
      · exact (cslRev_get_eq _ _ i hi).1
      · rw [List.getElem?_eq_none (by omega), List.getElem?_eq_none (by omega)]
    exact List.reverse_injective hrev
  · apply hc
    have h1 : (p.reverse.take (D + 1))[cslRev p.reverse q.reverse]? =
        (q.reverse.take (D + 1))[cslRev p.reverse q.reverse]? := by rw [hcon]
    rw [List.getElem?_take_of_lt (by omega), List.getElem?_take_of_lt (by omega)] at h1
    exact h1

theorem take_rev_suffix (p : List String) (k : Nat) :
    (p.reverse.take k).reverse <:+ p :=
  ⟨(p.reverse.drop k).reverse, by
    rw [← List.reverse_append, List.take_append_drop, List.reverse_reverse]⟩

/-- Claim C3: for a collision group of candidates with legal component lists
(nonempty components without `/`, except a possible root head), sharing a
basename, with pairwise-distinct full paths, the resolver returns as many
candidates as it got, bearing pairwise-distinct labels; every label is the
`/`-join of a suffix of its own candidate's path, built from
`min (maxDepth + 1, pathLength)` components where `maxDepth` is the group
maximum probe depth of the first pass. -/
theorem C3_dedup_unique (l : List Session)
    (hval : ∀ s ∈ l, validPathB s.path = true)
    (hdist : l.Pairwise (fun a b => a.path ≠ b.path))
    (hbase : ∀ s ∈ l, ∀ t ∈ l, revNth s.path 0 = revNth t.path 0) :
    (deduplicate_sessions l).length = l.length
    ∧ (deduplicate_sessions l).Pairwise (fun a b => a.name ≠ b.name)
    ∧ ∀ s ∈ deduplicate_sessions l,
        s.name =
          joinComps ((s.path.reverse.take ((dedupPops l.reverse 1).2 + 1)).reverse)
        ∧ (s.path.reverse.take ((dedupPops l.reverse 1).2 + 1)).reverse <:+ s.path
        ∧ ((s.path.reverse.take ((dedupPops l.reverse 1).2 + 1)).reverse).length =
            min ((dedupPops l.reverse 1).2 + 1) s.path.length := by
  have hout : deduplicate_sessions l =
      l.reverse.map (relabel (dedupPops l.reverse 1).2) := by
    rw [deduplicate_sessions_def, dedupPops_fst]
  have hvalr : ∀ s ∈ l.reverse, validPathB s.path = true := by
    intro s hs
    exact hval s (List.mem_reverse.mp hs)
  refine ⟨?_, ?_, ?_⟩
  · rw [hout, List.length_map, List.length_reverse]
  · rw [hout, List.pairwise_map, List.pairwise_iff_get]
    intro i j hij
    have hsimem : l.reverse.get i ∈ l.reverse := List.get_mem _ _ _
    have hsjmem : l.reverse.get j ∈ l.reverse := List.get_mem _ _ _
    have hvi := hvalr _ hsimem
    have hvj := hvalr _ hsjmem
    have hsplit : l.reverse =
        l.reverse.take i.1 ++ l.reverse.get i :: l.reverse.drop (i.1 + 1) := by
      have h1 := List.take_append_drop i.1 l.reverse
      rw [List.drop_eq_get_cons i.2] at h1
      exact h1.symm
    have hjmem : l.reverse.get j ∈ l.reverse.drop (i.1 + 1) := by
      have h3 : l.reverse[j.1]? = some (l.reverse.get j) := by
        rw [List.getElem?_eq_getElem j.2]
        rfl
      have h4 := List.getElem?_drop l.reverse (i.1 + 1) (j.1 - (i.1 + 1))
      rw [show (i.1 + 1) + (j.1 - (i.1 + 1)) = j.1 by
        have := hij
        rw [Fin.lt_def] at this
        omega] at h4
      rw [h3] at h4
      exact List.getElem?_mem h4
    have hpne : (l.reverse.get i).path ≠ (l.reverse.get j).path := by
      have hpw : l.reverse.Pairwise (fun a b => a.path ≠ b.path) :=
        List.pairwise_reverse.mpr (hdist.imp (fun h hc => h hc.symm))
      exact List.pairwise_iff_get.mp hpw i j hij
    have hcsl_le : cslRev (l.reverse.get i).path.reverse (l.reverse.get j).path.reverse ≤
        (dedupPops l.reverse 1).2 := by
      by_cases h0 :
          1 ≤ cslRev (l.reverse.get i).path.reverse (l.reverse.get j).path.reverse
      · have h5 := probeDepth_ge_csl (l.reverse.drop (i.1 + 1)) (l.reverse.get j) hjmem
          (l.reverse.get i).path h0
        have h6 := dedupPops_ge_probe (l.reverse.take i.1) (l.reverse.get i)
          (l.reverse.drop (i.1 + 1)) 1
        rw [← hsplit] at h6
        omega
      · omega
    show (relabel (dedupPops l.reverse 1).2 (l.reverse.get i)).name ≠
        (relabel (dedupPops l.reverse 1).2 (l.reverse.get j)).name
    rw [show (relabel (dedupPops l.reverse 1).2 (l.reverse.get i)).name =
        buildName ((dedupPops l.reverse 1).2 + 1) (l.reverse.get i).path.reverse ""
        from rfl,
      show (relabel (dedupPops l.reverse 1).2 (l.reverse.get j)).name =
        buildName ((dedupPops l.reverse 1).2 + 1) (l.reverse.get j).path.reverse ""
        from rfl,
      buildName_spec _ _ (fun c hc =>
        validPathB_ne_empty _ hvi c (List.mem_reverse.mp hc)) (by omega),
      buildName_spec _ _ (fun c hc =>
        validPathB_ne_empty _ hvj c (List.mem_reverse.mp hc)) (by omega)]
    intro hcon
    have heq := joinComps_inj _ _ (validLabel_take _ hvi ((dedupPops l.reverse 1).2 + 1))
      (validLabel_take _ hvj ((dedupPops l.reverse 1).2 + 1)) hcon
    exact take_rev_ne _ _ hpne _ hcsl_le (List.reverse_injective heq)
  · intro s hs
    rw [hout] at hs
    obtain ⟨s0, hs0, rfl⟩ := List.mem_map.mp hs
    have hv0 := hvalr s0 hs0
    refine ⟨?_, take_rev_suffix _ _, ?_⟩
    · show buildName ((dedupPops l.reverse 1).2 + 1) s0.path.reverse "" = _
      rw [buildName_spec _ _ (fun c hc =>
        validPathB_ne_empty _ hv0 c (List.mem_reverse.mp hc)) (by omega)]
      rfl
    · rw [List.length_reverse, List.length_take, List.length_reverse]

/-- Witness for `C3_dedup_unique`: the repository's own test group gets three
pairwise-distinct labels. -/
theorem C3_dedup_unique_witness :
    (deduplicate_sessions sessRepoTest).Pairwise (fun a b => a.name ≠ b.name) :=
  (C3_dedup_unique sessRepoTest (by decide) (by decide) (by decide)).2.1
